import Mathlib

/-!
Verification of the client-side AMD module loader: PathResolver, EventEmitter,
ConfigParser, DependencyBuilder, URLBuilder and the Loader orchestration are
shallowly embedded as executable Lean functions, and the specification's
claims about them are settled as theorems.

Conventions of the embedding:
* JS objects keyed by strings become association lists `List (String × _)`;
  `lookupA` is property read (`undefined` becomes `none`), `insertA` is
  property assignment, `updateA` is in-place mutation of a stored object.
* Exceptions become an `Option Err` / `Except Err` component of the result;
  reading a property of `undefined` is the `Err.typeErr` outcome.
* The recursive DFS of DependencyBuilder is written with an explicit fuel
  argument; `resolveDependencies` instantiates the fuel with bounds that are
  proved sufficient, so fuel exhaustion is an impossible outcome there.
* A conditional module's `test` predicate is modelled by the boolean it
  evaluates to; a factory (`pendingImplementation`) is modelled by the value
  it returns, since only that value flows into `implementation`.
-/

namespace AmdLoader

/-- A `condition` field of a module descriptor: `{trigger, test}`, with the
test predicate modelled by its boolean outcome. -/
structure Cond where
  trigger : String
  test : Bool
deriving Repr, DecidableEq

/-- A module descriptor as stored in the ConfigParser registry. -/
structure Mod where
  name : String := ""
  dependencies : List String := []
  path : Option String := none
  fullPath : Option String := none
  condition : Option Cond := none
  implementation : Option Nat := none
  pendingImplementation : Option Nat := none
  mark : Bool := false
  tmpMark : Bool := false
  conditionalMark : Bool := false
  load : Bool := false
deriving Repr, DecidableEq

/-- Errors thrown during a resolution pass: the cycle error raised by
`_visit`, the TypeError raised by reading a property of `undefined`, and
fuel exhaustion of the embedding (proved unreachable for the fuel used). -/
inductive Err where
  | cycle (name : String)
  | typeErr
  | fuel
deriving Repr, DecidableEq

instance {ε α : Type} [DecidableEq ε] [DecidableEq α] : DecidableEq (Except ε α) :=
  fun x y =>
    match x, y with
    | .ok a, .ok b =>
      if h : a = b then isTrue (by rw [h])
      else isFalse (by intro hc; injection hc; contradiction)
    | .error a, .error b =>
      if h : a = b then isTrue (by rw [h])
      else isFalse (by intro hc; injection hc; contradiction)
    | .ok _, .error _ => isFalse (by intro hc; cases hc)
    | .error _, .ok _ => isFalse (by intro hc; cases hc)

/-- Association-list read: `obj[key]`, `undefined` becomes `none`. -/
def lookupA {α : Type} : List (String × α) → String → Option α
  | [], _ => none
  | (k', v) :: rest, k => if k' = k then some v else lookupA rest k

/-- Association-list assignment: `obj[key] = v` (overwrite or append). -/
def insertA {α : Type} : List (String × α) → String → α → List (String × α)
  | [], k, v => [(k, v)]
  | (k', v') :: rest, k, v =>
    if k' = k then (k, v) :: rest else (k', v') :: insertA rest k v

/-- In-place mutation of the object stored under a key. -/
def updateA {α : Type} : List (String × α) → String → (α → α) → List (String × α)
  | [], _, _ => []
  | (k', v) :: rest, k, f =>
    if k' = k then (k', f v) :: rest else (k', v) :: updateA rest k f

/-! ## PathResolver -/

/-- `String.prototype.split` with a one-character separator, on the
character list. -/
def splitChars (sep : Char) : List Char → List (List Char)
  | [] => [[]]
  | c :: rest =>
    if c = sep then [] :: splitChars sep rest
    else
      match splitChars sep rest with
      | [] => [[c]]
      | g :: gs => (c :: g) :: gs

/-- `s.split(sep)` producing string segments. -/
def jsSplit (s : String) (sep : Char) : List String :=
  (splitChars sep s.data).map String.mk

/-- `Array.prototype.join(sep)` over string segments. -/
def jsJoin (sep : String) : List String → String
  | [] => ""
  | [g] => g
  | g :: gs => g ++ sep ++ jsJoin sep gs

/-- The segment walk of `PathResolver.resolvePath`: `"."` is a no-op, `".."`
pops the accumulated base or — when the base is empty — appends the whole
remaining tail (the current `".."` included, mirroring `o.slice(i)`) and
stops, and any other segment is appended. -/
def walkSegments : List String → List String → List String
  | n, [] => n
  | n, s :: rest =>
    if s = "." then walkSegments n rest
    else if s = ".." then
      if n.isEmpty then n ++ (s :: rest)
      else walkSegments n.dropLast rest
    else walkSegments (n ++ [s]) rest

/-- `PathResolver.resolvePath(referrer, relativeId)`: `"exports"` passes
through; otherwise the referrer's directory part is the initial base, the
relative id's directory segments are walked, and its basename is appended. -/
def resolvePath (referrer dependency : String) : String :=
  if dependency = "exports" then dependency
  else
    let n := (jsSplit referrer '/').dropLast
    let parts := jsSplit dependency '/'
    let o := parts.dropLast
    let r := (parts.getLast?).getD ""
    jsJoin "/" (walkSegments n o ++ [r])

/-! ## EventEmitter

Listeners are identified by numeric ids; what a callback does to the emitter
when invoked (calls to `on`/`off`, possibly nothing) is supplied as a
function `act`. -/

/-- The event-name → listener-list store. -/
structure Emitter where
  events : List (String × List Nat)
deriving Repr, DecidableEq

/-- `EventEmitter.on`: append the callback to the (possibly fresh) list for
the event. -/
def Emitter.on (em : Emitter) (ev : String) (c : Nat) : Emitter :=
  match lookupA em.events ev with
  | none => ⟨insertA em.events ev [c]⟩
  | some l => ⟨insertA em.events ev (l ++ [c])⟩

/-- `indexOf` + `splice(o, 1)`: remove the first occurrence, if any. -/
def removeFirstListener : List Nat → Nat → List Nat
  | [], _ => []
  | x :: rest, c => if x = c then rest else x :: removeFirstListener rest c

/-- `EventEmitter.off`: remove the first occurrence of the callback from the
event's list; a missing event or callback only warns. -/
def Emitter.off (em : Emitter) (ev : String) (c : Nat) : Emitter :=
  match lookupA em.events ev with
  | none => em
  | some l => ⟨insertA em.events ev (removeFirstListener l c)⟩

/-- `EventEmitter.emit`: iterate over a `slice(0)` snapshot of the event's
listener list, invoking each callback (whose effect on the emitter is
`act`); returns the final emitter and the sequence of callbacks invoked. -/
def Emitter.emit (act : Nat → Emitter → Emitter) (em : Emitter) (ev : String) :
    Emitter × List Nat :=
  match lookupA em.events ev with
  | none => (em, [])
  | some l => (l.foldl (fun acc c => act c acc) em, l)

/-- The listener list currently registered for an event. -/
def Emitter.listeners (em : Emitter) (ev : String) : List Nat :=
  (lookupA em.events ev).getD []

/-! ## Shared mutable state

The ConfigParser's registry and conditional index together with the
DependencyBuilder's work queue and result accumulator. -/

/-- The state shared by ConfigParser and DependencyBuilder. -/
structure DepState where
  modules : List (String × Mod)
  conditionalModules : List (String × List String)
  queue : List String := []
  result : List String := []
deriving Repr, DecidableEq

/-! ## ConfigParser -/

/-- `ConfigParser.resolvePath`: rewrite each dependency of a descriptor
through the PathResolver, with the module's own name as referrer. -/
def cpResolvePath (m : Mod) : Mod :=
  {m with dependencies := m.dependencies.map (fun d => resolvePath m.name d)}

/-- `ConfigParser._registerConditionalModule`: append the module's name to
the conditional index under its trigger. -/
def registerConditionalModule (idx : List (String × List String)) (m : Mod) :
    List (String × List String) :=
  match m.condition with
  | none => idx
  | some c =>
    match lookupA idx c.trigger with
    | none => insertA idx c.trigger [m.name]
    | some l => insertA idx c.trigger (l ++ [m.name])

/-- `ConfigParser.addModule`: store the descriptor under its name, rewrite
its dependencies through the PathResolver (the stored object is mutated),
and register it in the conditional index. -/
def addModule (st : DepState) (m : Mod) : DepState :=
  let m' := cpResolvePath m
  {st with
    modules := insertA st.modules m.name m',
    conditionalModules := registerConditionalModule st.conditionalModules m'}

/-! ## DependencyBuilder -/

/-- The loop body of `_processConditionalModules`: for each name in the
trigger's conditional list, look it up (a missing entry is a TypeError),
skip it when already queued, and push it when its condition's test is true.
Reading `condition.test` of a descriptor without a condition is a
TypeError. -/
def condLoop : DepState → List String → DepState × Option Err
  | st, [] => (st, none)
  | st, cn :: rest =>
    match lookupA st.modules cn with
    | none => (st, some Err.typeErr)
    | some r =>
      if r.name ∈ st.queue then condLoop st rest
      else
        match r.condition with
        | none => (st, some Err.typeErr)
        | some c =>
          if c.test then condLoop {st with queue := st.queue ++ [r.name]} rest
          else condLoop st rest

/-- `DependencyBuilder._processConditionalModules`: if the visited module
has a conditional list and has not been conditionally processed this pass,
run the loop and then set its `conditionalMark`. -/
def processConditionalModules (st : DepState) (key : String) (e : Mod) :
    DepState × Option Err :=
  match lookupA st.conditionalModules e.name with
  | none => (st, none)
  | some lst =>
    if e.conditionalMark then (st, none)
    else
      match condLoop st lst with
      | (st1, none) =>
        ({st1 with
           modules :=
             updateA st1.modules key (fun m => {m with conditionalMark := true})},
          none)
      | r => r

/-- The dependency loop inside `_visit`: visit each non-`"exports"`
dependency in order, aborting on the first error. -/
def goDeps (v : DepState → String → DepState × Option Err) :
    DepState → List String → DepState × Option Err
  | st, [] => (st, none)
  | st, d :: rest =>
    if d = "exports" then goDeps v st rest
    else
      match v st d with
      | (st', none) => goDeps v st' rest
      | r => r

/-- The `e.tmpMark = true` mutation at the start of an unmarked visit. -/
def setTmpAt (st : DepState) (name : String) : DepState :=
  {st with modules := updateA st.modules name (fun m => {m with tmpMark := true})}

/-- The completion of a visit: `e.mark = true`, `e.tmpMark = false`, and the
module's name is unshifted onto the result. -/
def finishVisit (st : DepState) (key modName : String) : DepState :=
  {st with
    modules := updateA st.modules key
      (fun m => {m with mark := true, tmpMark := false}),
    result := modName :: st.result}

/-- `DependencyBuilder._visit`, by module name with an explicit recursion
depth: an already `tmpMark`-ed module is a cycle error; conditional modules
are processed first; an unmarked module is `tmpMark`-ed, its non-exports
dependencies are visited recursively (a missing dependency is a TypeError),
and on completion it is `mark`-ed, un-`tmpMark`-ed and prepended to the
result. -/
def visit : Nat → DepState → String → DepState × Option Err
  | 0, st, _ => (st, some Err.fuel)
  | Nat.succ fuel, st, name =>
    match lookupA st.modules name with
    | none => (st, some Err.typeErr)
    | some e =>
      if e.tmpMark then (st, some (Err.cycle e.name))
      else
        match processConditionalModules st name e with
        | (st1, some err) => (st1, some err)
        | (st1, none) =>
          if e.mark then (st1, none)
          else
            match goDeps (visit fuel) (setTmpAt st1 name) e.dependencies with
            | (st3, some err) => (st3, some err)
            | (st3, none) => (finishVisit st3 name e.name, none)

/-- `DependencyBuilder._resolveDependencies`: iterate the growing work queue
by index; a missing queue entry is a TypeError, marked entries are skipped,
unmarked ones are visited. -/
def resolveLoop (vf : Nat) : Nat → DepState → Nat → DepState × Option Err
  | fuel, st, t =>
    if h : t < st.queue.length then
      match fuel with
      | 0 => (st, some Err.fuel)
      | Nat.succ fuel' =>
        match lookupA st.modules (st.queue.get ⟨t, h⟩) with
        | none => (st, some Err.typeErr)
        | some e =>
          if e.mark then resolveLoop vf fuel' st (t + 1)
          else
            match visit vf st (st.queue.get ⟨t, h⟩) with
            | (st', none) => resolveLoop vf fuel' st' (t + 1)
            | r => r
    else (st, none)

/-- `DependencyBuilder._cleanup`: reset `conditionalMark`, `mark` and
`tmpMark` of every registry descriptor and empty the queue and result. -/
def cleanup (st : DepState) : DepState :=
  {st with
    modules :=
      st.modules.map
        (fun p =>
          (p.1,
            {p.2 with conditionalMark := false, mark := false, tmpMark := false})),
    queue := [], result := []}

/-- `DependencyBuilder.resolveDependencies`: seed the queue with a copy of
the requested names, run the resolution loop, reverse the accumulated
result, and clean up in a `finally` whether the pass succeeded or threw.
The fuel instantiations are proved sufficient below. -/
def resolveDependencies (st : DepState) (names : List String) :
    Except Err (List String) × DepState :=
  let st0 := {st with queue := names}
  let vf := st0.modules.length + 1
  let ofuel := names.length + st0.modules.length + 1
  match resolveLoop vf ofuel st0 0 with
  | (st1, none) => (Except.ok st1.result.reverse, cleanup st1)
  | (st1, some e) => (Except.error e, cleanup st1)

/-! ## URLBuilder -/

/-- Prefix test on character lists (`chPrefix sub l` holds when `sub` starts
`l`). -/
def chPrefix : List Char → List Char → Bool
  | [], _ => true
  | _ :: _, [] => false
  | a :: as, b :: bs => a = b && chPrefix as bs

/-- Index of the first occurrence of `sub` in `l`, scanning from `i`. -/
def firstOccAux (sub : List Char) : List Char → Nat → Option Nat
  | l, i =>
    if chPrefix sub l then some i
    else
      match l with
      | [] => none
      | _ :: rest => firstOccAux sub rest (i + 1)

/-- `String.prototype.indexOf` (first occurrence, `-1` when absent). -/
def jsIndexOf (s sub : String) : Int :=
  match firstOccAux sub.data s.data 0 with
  | some i => (i : Int)
  | none => -1

/-- Truthiness of the `path` override. -/
def pathTruthy (e : Mod) : Bool :=
  match e.path with
  | some p => p != ""
  | none => false

/-- Truthiness of the `fullPath` override. -/
def fullPathTruthy (e : Mod) : Bool :=
  match e.fullPath with
  | some p => p != ""
  | none => false

/-- `URLBuilder._getModulePath`: a truthy `path` override wins; otherwise
the name gets `".js"` appended unless the first occurrence of `".js"` in
the name sits exactly at `length - 3`. -/
def getModulePath (e : Mod) : String :=
  if pathTruthy e then e.path.getD ""
  else if jsIndexOf e.name ".js" ≠ (e.name.length : Int) - 3 then e.name ++ ".js"
  else e.name

/-- Global configuration consumed by URLBuilder. -/
structure LoaderConfig where
  url : String
  basePath : String
  combine : Bool
deriving Repr, DecidableEq

/-- `basePath` with a trailing slash ensured (`charAt(length - 1)`). -/
def normBase (b : String) : String :=
  match b.data.getLast? with
  | some c => if c = '/' then b else b ++ "/"
  | none => b ++ "/"

/-- The per-module loop of `URLBuilder.build`: a truthy `fullPath` is
fetched directly, with `combine` the relative path joins the batch,
otherwise a direct URL is emitted; every listed module's `load` flag is
set. A name absent from the registry is a TypeError (`none`). -/
def buildLoop (conf : LoaderConfig) :
    List (String × Mod) → List String → List String → List String →
    Option (List String × List String × List (String × Mod))
  | reg, [], t, n => some (t, n, reg)
  | reg, nm :: rest, t, n =>
    match lookupA reg nm with
    | none => none
    | some u =>
      let reg' := updateA reg nm (fun m => {m with load := true})
      if fullPathTruthy u then
        buildLoop conf reg' rest t (n ++ [u.fullPath.getD ""])
      else if conf.combine then
        buildLoop conf reg' rest (t ++ [getModulePath u]) n
      else
        buildLoop conf reg' rest t
          (n ++ [conf.url ++ normBase conf.basePath ++ getModulePath u])

/-- `URLBuilder.build`: run the loop and, when a combine batch accumulated,
emit the single combined URL
`url + "?" + basePath + p1 + "&" + basePath + p2 + ...`. -/
def build (conf : LoaderConfig) (reg : List (String × Mod))
    (names : List String) : Option (List String × List (String × Mod)) :=
  match buildLoop conf reg names [] [] with
  | none => none
  | some (t, n, reg') =>
    if t.isEmpty then some (n, reg')
    else
      some
        (n ++
            [conf.url ++ "?" ++ normBase conf.basePath ++
                jsJoin ("&" ++ normBase conf.basePath) t],
          reg')

/-! ## Loader -/

/-- `Loader._resolveDependencies`: filter the requested names down to those
present in the registry, then run the DependencyBuilder. -/
def loaderResolveDependencies (st : DepState) (names : List String) :
    Except Err (List String) × DepState :=
  resolveDependencies st
    (names.filter (fun nm => (lookupA st.modules nm).isSome))

/-- `Loader._addModuleImplementations`: the implementation of each
originally requested name, in request order (`undefined` for a missing
module or implementation). -/
def addModuleImplementations (st : DepState) (names : List String) :
    List (Option Nat) :=
  names.map
    (fun nm =>
      match lookupA st.modules nm with
      | none => none
      | some r => r.implementation)

/-- The synchronous skeleton of `Loader.require`'s success path: when
dependency resolution succeeds, the success callback receives the
implementations of the originally requested names. -/
def requireSuccessArgs (st : DepState) (names : List String) :
    Option (List (Option Nat)) :=
  match (loaderResolveDependencies st names).1 with
  | Except.ok _ => some (addModuleImplementations st names)
  | Except.error _ => none

/-- The descriptor built synchronously by `Loader.define` before
registration: name, dependencies and factory stamped, dependencies
rewritten once through the PathResolver. -/
def defineDescriptor (name : String) (deps : List String) (pend : Option Nat)
    (extra : Mod := {}) : Mod :=
  cpResolvePath
    {extra with name := name, dependencies := deps, pendingImplementation := pend}

/-- `Loader._registerModule`: realize the implementation (the factory's
return value, or the exports placeholder — an opaque object, modelled as
`0` — when the factory returns nothing and `"exports"` is among the
dependencies; a missing non-exports dependency is a TypeError), then hand
the descriptor to `ConfigParser.addModule`. -/
def registerModule (st : DepState) (m : Mod) : Option DepState :=
  if m.dependencies.all (fun d => d == "exports" || (lookupA st.modules d).isSome) then
    let impl :=
      match m.pendingImplementation with
      | some v => some v
      | none => if m.dependencies.contains "exports" then some 0 else none
    some (addModule st {m with implementation := impl})
  else none

/-- `Loader.define` followed by `Loader._registerModule`: the registration
pipeline a defined module goes through (immediately when its dependencies
are already implemented, or deferred otherwise). -/
def defineRegister (st : DepState) (name : String) (deps : List String)
    (pend : Option Nat) (extra : Mod := {}) : Option DepState :=
  registerModule st (defineDescriptor name deps pend extra)

/-! ## The dependency graph of a state -/

/-- The non-`"exports"` dependencies of a registry module (empty for a
missing module). -/
def depsOf (st : DepState) (n : String) : List String :=
  match lookupA st.modules n with
  | none => []
  | some m => m.dependencies.filter (fun d => d != "exports")

/-- The dependency edge: `a` depends on `b`. -/
def edgeOf (st : DepState) (a b : String) : Prop := b ∈ depsOf st a

/-! ## Specification predicates -/

/-- Pointwise relation between two association lists of equal length. -/
def PW {α : Type} (R : (String × α) → (String × α) → Prop) :
    List (String × α) → List (String × α) → Prop
  | [], [] => True
  | p :: l, q :: l2 => R p q ∧ PW R l l2
  | _, _ => False

/-- What one resolution step may do to a registry entry: the key and the
core fields are untouched, `mark` and `conditionalMark` only ever go from
`false` to `true`. -/
def coreRel (p q : String × Mod) : Prop :=
  q.1 = p.1 ∧ q.2.name = p.2.name ∧ q.2.dependencies = p.2.dependencies ∧
    q.2.condition = p.2.condition ∧ (p.2.mark = true → q.2.mark = true) ∧
    (p.2.conditionalMark = true → q.2.conditionalMark = true)

/-- How the shared state may evolve across one resolution step: the
conditional index is untouched, registry entries evolve by `coreRel`, the
queue grows by fresh registered names, the result grows at the front. -/
structure StepRel (st st2 : DepState) : Prop where
  condIdx : st2.conditionalModules = st.conditionalModules
  core : PW coreRel st.modules st2.modules
  queue : ∃ ext, st2.queue = st.queue ++ ext ∧ ext.Nodup ∧
      ∀ x ∈ ext, x ∉ st.queue ∧ (lookupA st.modules x).isSome = true
  result : ∃ nw, st2.result = nw ++ st.result

/-- The `tmpMark` of the descriptor stored under `k` in a registry list
(`false` when absent). -/
def tmpOfL (l : List (String × Mod)) (k : String) : Bool :=
  match lookupA l k with
  | some m => m.tmpMark
  | none => false

/-- The `tmpMark` flags visible in the two states agree for every name. -/
def TmpEq (st st2 : DepState) : Prop :=
  ∀ k, tmpOfL st2.modules k = tmpOfL st.modules k

/-- The result accumulator in `unshift` order: every element's dependencies
lie in its tail (so the reversed list is dependency-first). -/
def DFR (g : String → List String) : List String → Prop
  | [] => True
  | x :: rest => (∀ d ∈ g x, d ∈ rest) ∧ DFR g rest

/-- Dependency-first order of the returned list: every non-exports
dependency of an element appears strictly earlier. -/
def DepFirst (st : DepState) (out : List String) : Prop :=
  ∀ pre x post, out = pre ++ x :: post → ∀ d ∈ depsOf st x, d ∈ pre

/-- The invariant maintained by the DFS across a resolution pass. -/
structure Inv (st : DepState) : Prop where
  mem_iff : ∀ k m, lookupA st.modules k = some m → (m.mark = true ↔ k ∈ st.result)
  nodup : st.result.Nodup
  regd : ∀ x ∈ st.result, (lookupA st.modules x).isSome = true
  dfr : DFR (depsOf st) st.result
  disj : ∀ k m, lookupA st.modules k = some m → m.mark = true → m.tmpMark = false
  mc : ∀ k m, lookupA st.modules k = some m → m.mark = true →
      m.conditionalMark = true ∨ lookupA st.conditionalModules m.name = none
  condDone : ∀ k m, lookupA st.modules k = some m → m.conditionalMark = true →
      ∀ lst, lookupA st.conditionalModules m.name = some lst →
      ∀ cn ∈ lst, ∀ cm, lookupA st.modules cn = some cm →
      ∀ c, cm.condition = some c → c.test = true → cm.name ∈ st.queue

/-- Well-formedness of a configuration: every stored descriptor carries its
key as `name`, every non-exports dependency is registered, and every
conditional-index entry names a registered descriptor with a condition. -/
structure WF (st : DepState) : Prop where
  nodupKeys : (st.modules.map Prod.fst).Nodup
  keys : ∀ p ∈ st.modules, p.2.name = p.1
  depsReg : ∀ p ∈ st.modules, ∀ d ∈ p.2.dependencies, d ≠ "exports" →
      (lookupA st.modules d).isSome = true
  conds : ∀ q ∈ st.conditionalModules, ∀ cn ∈ q.2,
      ((lookupA st.modules cn).map (fun m => m.condition.isSome)).getD false = true

/-- All traversal flags of every registry descriptor are down. -/
def CleanFlags (st : DepState) : Prop :=
  ∀ p ∈ st.modules, p.2.mark = false ∧ p.2.tmpMark = false ∧ p.2.conditionalMark = false

/-- A state in which no pass has run (or every pass was cleaned up). -/
def CleanState (st : DepState) : Prop := CleanFlags st ∧ st.result = []

/-- No descriptor is `tmpMark`-ed. -/
def NoTmp (st : DepState) : Prop :=
  ∀ k m, lookupA st.modules k = some m → m.tmpMark = false

/-- The dependency graph of the configuration is acyclic. -/
def Acyc (st : DepState) : Prop := ∀ n, ¬ Relation.TransGen (edgeOf st) n n

/-- Every `tmpMark`-ed descriptor transitively depends on `name` (the
DFS-path hypothesis of `_visit`). -/
def HT (st : DepState) (name : String) : Prop :=
  ∀ k m, lookupA st.modules k = some m → m.tmpMark = true →
    Relation.TransGen (edgeOf st) k name

/-- Number of registry entries not currently `tmpMark`-ed (the recursion
depth budget of `_visit`). -/
def countUnTmp (st : DepState) : Nat :=
  (st.modules.filter (fun p => !p.2.tmpMark)).length

/-- `m` is reachable from the request along dependency edges. -/
def ReachableFrom (st : DepState) (names : List String) (m : String) : Prop :=
  ∃ s ∈ names, Relation.ReflTransGen (edgeOf st) s m

/-- The fetch path of a listed module, read off the registry. -/
def modulePathIn (reg : List (String × Mod)) (nm : String) : String :=
  getModulePath ((lookupA reg nm).getD {})

/-- The `tmpMark` of the descriptor stored under `k` (`false` when absent). -/
def tmpOf (st : DepState) (k : String) : Bool := tmpOfL st.modules k

/-- The queue during a pass: the seeds followed by duplicate-free registered
conditional additions. -/
def QInv (seeds : List String) (st : DepState) : Prop :=
  ∃ ext, st.queue = seeds ++ ext ∧ ext.Nodup ∧
    ∀ x ∈ ext, (lookupA st.modules x).isSome = true

/-- Everything one call of `_visit` guarantees, given a well-formed input
state. -/
structure VisitConcl (fuel : Nat) (st : DepState) (name : String)
    (out : DepState × Option Err) : Prop where
  step : StepRel st out.1
  tmp_preserved : out.2 = none → TmpEq st out.1
  marked : out.2 = none →
      ∃ m2, lookupA out.1.modules name = some m2 ∧ m2.mark = true
  inv : Inv st → Inv out.1
  no_type : (lookupA st.modules name).isSome = true → out.2 ≠ some Err.typeErr
  no_fuel : countUnTmp st + 1 ≤ fuel → out.2 ≠ some Err.fuel
  success : Acyc st → HT st name →
      (∀ m, lookupA st.modules name = some m → m.tmpMark = false) →
      (lookupA st.modules name).isSome = true →
      countUnTmp st + 1 ≤ fuel → out.2 = none

/-- Everything the dependency loop of `_visit` guarantees. -/
structure GoConcl (fuel : Nat) (st : DepState) (l : List String)
    (out : DepState × Option Err) : Prop where
  step : StepRel st out.1
  tmp_preserved : out.2 = none → TmpEq st out.1
  all_marked : out.2 = none → ∀ d ∈ l, d ≠ "exports" →
      ∃ m2, lookupA out.1.modules d = some m2 ∧ m2.mark = true
  inv : Inv st → Inv out.1
  no_type : (∀ d ∈ l, d ≠ "exports" → (lookupA st.modules d).isSome = true) →
      out.2 ≠ some Err.typeErr
  no_fuel : countUnTmp st + 1 ≤ fuel → out.2 ≠ some Err.fuel
  success : Acyc st →
      (∀ d ∈ l, d ≠ "exports" → (lookupA st.modules d).isSome = true) →
      (∀ d ∈ l, d ≠ "exports" → HT st d) →
      (∀ d ∈ l, d ≠ "exports" → ∀ m, lookupA st.modules d = some m →
        m.tmpMark = false) →
      countUnTmp st + 1 ≤ fuel → out.2 = none

/-- Everything the outer queue loop guarantees. -/
structure LoopConcl (st : DepState) (t : Nat) (out : DepState × Option Err) :
    Prop where
  step : StepRel st out.1
  inv : Inv st → Inv out.1
  err_class : out.2 = none ∨ ∃ n, out.2 = some (Err.cycle n)
  all_marked : out.2 = none →
      (∀ x ∈ st.queue.take t, ∃ m, lookupA st.modules x = some m ∧ m.mark = true) →
      ∀ x ∈ out.1.queue, ∃ m2, lookupA out.1.modules x = some m2 ∧ m2.mark = true
  success : Acyc st → NoTmp st → out.2 = none

/-! ## Concrete fixtures used by the witnesses -/

/-- A two-module acyclic configuration: `a` depends on `b`. -/
def wAcy : DepState :=
  ⟨[("a", {name := "a", dependencies := ["b"]}), ("b", {name := "b"})], [], [], []⟩

/-- A two-module cyclic configuration: `a` and `b` depend on each other. -/
def wCyc : DepState :=
  ⟨[("a", {name := "a", dependencies := ["b"]}),
    ("b", {name := "b", dependencies := ["a"]})], [], [], []⟩

/-- A conditional configuration: `beta` activates when `alpha` is requested
and `alpha` depends on `beta`. -/
def wCond : DepState :=
  ⟨[("alpha", {name := "alpha", dependencies := ["beta"]}),
    ("beta", {name := "beta", condition := some ⟨"alpha", true⟩})],
   [("alpha", ["beta"])], [], []⟩

/-- A fully implemented two-module configuration. -/
def wImpl : DepState :=
  ⟨[("alpha", {name := "alpha", dependencies := ["beta"], implementation := some 1}),
    ("beta", {name := "beta", implementation := some 2})], [], [], []⟩

/-- A registry of two plain modules for the URLBuilder witness. -/
def wReg : List (String × Mod) :=
  [("mod1", {name := "mod1"}), ("mod2", {name := "mod2"})]

/-- A registry holding the already-registered dependency of the define
witness. -/
def wDef : DepState := ⟨[("a/c", {name := "a/c", implementation := some 7})], [], [], []⟩

/-- A combining configuration for the URLBuilder witness. -/
def wConfC : LoaderConfig := ⟨"http://h/", "base", true⟩

/-! # Theorems -/

theorem lookupA_mem {α : Type} {l : List (String × α)} {k : String} {v : α}
    (h : lookupA l k = some v) : (k, v) ∈ l := by
  induction l with
  | nil => simp [lookupA] at h
  | cons p rest ih =>
    obtain ⟨k', v'⟩ := p
    by_cases hk : k' = k
    · subst hk
      simp [lookupA] at h
      subst h
      exact List.mem_cons_self _ _
    · simp [lookupA, hk] at h
      exact List.mem_cons_of_mem _ (ih h)

theorem lookupA_updateA_self {α : Type} (l : List (String × α)) (k : String)
    (f : α → α) : lookupA (updateA l k f) k = (lookupA l k).map f := by
  induction l with
  | nil => simp [lookupA, updateA]
  | cons p rest ih =>
    obtain ⟨k', v'⟩ := p
    by_cases hk : k' = k
    · subst hk
      simp [lookupA, updateA]
    · simp [lookupA, updateA, hk, ih]

theorem lookupA_updateA_other {α : Type} (l : List (String × α)) (k k' : String)
    (f : α → α) (hne : k' ≠ k) : lookupA (updateA l k f) k' = lookupA l k' := by
  induction l with
  | nil => simp [lookupA, updateA]
  | cons p rest ih =>
    obtain ⟨k0, v0⟩ := p
    by_cases hk : k0 = k
    · subst hk
      have hne' : ¬ (k0 = k') := fun h => hne h.symm
      simp [lookupA, updateA, hne']
    · by_cases hk' : k0 = k'
      · subst hk'
        simp [lookupA, updateA, hk]
      · simp [lookupA, updateA, hk, hk', ih]

theorem lookupA_insertA_self {α : Type} (l : List (String × α)) (k : String)
    (v : α) : lookupA (insertA l k v) k = some v := by
  induction l with
  | nil => simp [lookupA, insertA]
  | cons p rest ih =>
    obtain ⟨k', v'⟩ := p
    by_cases hk : k' = k
    · subst hk
      simp [lookupA, insertA]
    · simp [lookupA, insertA, hk, ih]

example : resolvePath "a/b" "./x" = "a/x" := by decide
example : resolvePath "a/b" "../x" = "x" := by decide
example : resolvePath "a/b" "../../x" = "../x" := by decide
example : resolvePath "a/b" "a/c" = "a/a/c" := by decide

/-- C4 counterexample: resolving `"../../x"` against `"a/b"` does not yield
`"x"` — the `".."` being processed when the base runs empty is itself kept,
so the result is `"../x"`. -/
theorem resolvePath_dotdot_counterexample :
    resolvePath "a/b" "../../x" = "../x" ∧ ("../x" : String) ≠ "x" := by decide

/-- C4 (amended): resolving `"./x"` against `"a/b"` yields `"a/x"` and
resolving `"../x"` against `"a/b"` yields `"x"`; resolving `"../../x"`
against `"a/b"` yields `"../x"`, because when the pops exceed the available
base the remaining segments of the relative id — including the `".."`
currently being processed — are used verbatim. -/
theorem resolvePath_roundTrips :
    resolvePath "a/b" "./x" = "a/x" ∧ resolvePath "a/b" "../x" = "x" ∧
      resolvePath "a/b" "../../x" = "../x" := by decide

/-- C10: `emit` invokes exactly the callbacks registered for the event at
the moment of the call, in registration order: the invoked sequence is the
listener list at call time, it is unchanged by whatever the callbacks do to
the emitter while the emission runs (`act` versus `act2`), and `on` appends
at the tail, so the list order is registration order. -/
theorem emit_snapshot (em : Emitter) (ev : String)
    (act act2 : Nat → Emitter → Emitter) (c : Nat) :
    (Emitter.emit act em ev).2 = Emitter.listeners em ev ∧
      (Emitter.emit act em ev).2 = (Emitter.emit act2 em ev).2 ∧
      Emitter.listeners (Emitter.on em ev c) ev = Emitter.listeners em ev ++ [c] := by
  unfold Emitter.emit Emitter.listeners Emitter.on
  cases h : lookupA em.events ev <;> simp [h, lookupA_insertA_self]

/-- C7 counterexample: `DependencyBuilder.resolveDependencies` does not
skip a requested name that is absent from the registry — it fails with a
TypeError on it (reading `mark` of `undefined`). -/
theorem resolveDependencies_unknown_errors :
    (resolveDependencies ⟨[], [], [], []⟩ ["ghost"]).1 = Except.error Err.typeErr := by
  decide

/-- C7 (amended): it is `Loader._resolveDependencies`, the caller, that
seeds the pass with the requested names while skipping any name not present
in the registry; through it an unknown requested name is silently dropped
— appending unknown names to a request leaves the outcome unchanged and
causes no error — while `DependencyBuilder.resolveDependencies` itself is
only ever given the filtered list. -/
theorem loaderResolveDependencies_drops_unknown (st : DepState)
    (names extra : List String)
    (hunk : ∀ x ∈ extra, lookupA st.modules x = none) :
    loaderResolveDependencies st (names ++ extra) =
        loaderResolveDependencies st names ∧
      loaderResolveDependencies st names =
        resolveDependencies st
          (names.filter (fun nm => (lookupA st.modules nm).isSome)) := by
  constructor
  · unfold loaderResolveDependencies
    have hfe : extra.filter (fun nm => (lookupA st.modules nm).isSome) = [] := by
      apply List.filter_eq_nil_iff.mpr
      intro x hx
      simp [hunk x hx]
    rw [List.filter_append, hfe, List.append_nil]
  · rfl

/-- Closed instance of the amended C7 statement. -/
theorem loaderResolveDependencies_drops_unknown_witness :
    loaderResolveDependencies wAcy (["a"] ++ ["ghost"]) =
        loaderResolveDependencies wAcy ["a"] ∧
      loaderResolveDependencies wAcy ["a"] =
        resolveDependencies wAcy
          (["a"].filter (fun nm => (lookupA wAcy.modules nm).isSome)) :=
  loaderResolveDependencies_drops_unknown wAcy ["a"] ["ghost"]
    (by intro x hx; simp at hx; subst hx; decide)

/-! ## First-occurrence search -/

theorem firstOccAux_le (sub : List Char) :
    ∀ l i j, firstOccAux sub l i = some j → i ≤ j := by
  intro l
  induction l with
  | nil =>
    intro i j h
    by_cases hp : chPrefix sub [] = true <;> simp [firstOccAux, hp] at h
    omega
  | cons c rest ih =>
    intro i j h
    by_cases hp : chPrefix sub (c :: rest) = true
    · simp [firstOccAux, hp] at h
      omega
    · simp [firstOccAux, hp] at h
      have := ih (i + 1) j h
      omega

theorem firstOccAux_found (sub : List Char) :
    ∀ l i j, firstOccAux sub l i = some j →
      chPrefix sub (l.drop (j - i)) = true := by
  intro l
  induction l with
  | nil =>
    intro i j h
    by_cases hp : chPrefix sub [] = true <;> simp [firstOccAux, hp] at h
    simpa [h] using hp
  | cons c rest ih =>
    intro i j h
    by_cases hp : chPrefix sub (c :: rest) = true
    · simp [firstOccAux, hp] at h
      subst h
      simpa using hp
    · simp [firstOccAux, hp] at h
      have hle := firstOccAux_le sub rest (i + 1) j h
      have := ih (i + 1) j h
      have hd : j - i = (j - (i + 1)) + 1 := by omega
      rw [hd]
      simpa using this

theorem firstOccAux_min (sub : List Char) :
    ∀ l i j, firstOccAux sub l i = some j →
      ∀ k, k < j - i → chPrefix sub (l.drop k) = false := by
  intro l
  induction l with
  | nil =>
    intro i j h k hk
    by_cases hp : chPrefix sub [] = true <;> simp [firstOccAux, hp] at h
    omega
  | cons c rest ih =>
    intro i j h k hk
    by_cases hp : chPrefix sub (c :: rest) = true
    · simp [firstOccAux, hp] at h
      omega
    · simp [firstOccAux, hp] at h
      match k with
      | 0 => simpa using (Bool.not_eq_true _).mp hp
      | Nat.succ k' =>
        have : k' < j - (i + 1) := by
          have := firstOccAux_le sub rest (i + 1) j h
          omega
        simpa using ih (i + 1) j h k' this

theorem firstOccAux_none (sub : List Char) :
    ∀ l i, firstOccAux sub l i = none →
      ∀ k, chPrefix sub (l.drop k) = false := by
  intro l
  induction l with
  | nil =>
    intro i h k
    by_cases hp : chPrefix sub [] = true <;> simp [firstOccAux, hp] at h
    simpa [List.drop_nil] using (Bool.not_eq_true _).mp hp
  | cons c rest ih =>
    intro i h k
    by_cases hp : chPrefix sub (c :: rest) = true
    · simp [firstOccAux, hp] at h
    · simp [firstOccAux, hp] at h
      match k with
      | 0 => simpa using (Bool.not_eq_true _).mp hp
      | Nat.succ k' => simpa using ih (i + 1) h k'

/-- `jsIndexOf` returns `j` exactly when `sub` occurs at `j` and nowhere
earlier. -/
theorem jsIndexOf_eq_coe (s sub : String) (j : Nat) :
    jsIndexOf s sub = (j : Int) ↔
      chPrefix sub.data (s.data.drop j) = true ∧
        ∀ k, k < j → chPrefix sub.data (s.data.drop k) = false := by
  unfold jsIndexOf
  cases h : firstOccAux sub.data s.data 0 with
  | none =>
    have hall := firstOccAux_none sub.data s.data 0 h
    dsimp only
    constructor
    · intro hc
      omega
    · intro ⟨h1, _⟩
      rw [hall j] at h1
      cases h1
  | some i =>
    have hf := firstOccAux_found sub.data s.data 0 i h
    have hm := firstOccAux_min sub.data s.data 0 i h
    simp only [Nat.sub_zero] at hf hm
    dsimp only
    constructor
    · intro hc
      have hij : i = j := by omega
      subst hij
      exact ⟨hf, hm⟩
    · intro ⟨h1, h2⟩
      have hij : i = j := by
        rcases Nat.lt_trichotomy i j with hlt | heq | hgt
        · rw [h2 i hlt] at hf
          cases hf
        · exact heq
        · rw [hm j hgt] at h1
          cases h1
      subst hij
      rfl

/-- `jsIndexOf` returns `-1` exactly when `sub` occurs nowhere. -/
theorem jsIndexOf_eq_neg_one (s sub : String) :
    jsIndexOf s sub = -1 ↔
      ∀ k, chPrefix sub.data (s.data.drop k) = false := by
  unfold jsIndexOf
  cases h : firstOccAux sub.data s.data 0 with
  | none =>
    dsimp only
    simpa using firstOccAux_none sub.data s.data 0 h
  | some i =>
    have hf := firstOccAux_found sub.data s.data 0 i h
    simp only [Nat.sub_zero] at hf
    dsimp only
    constructor
    · intro hc
      omega
    · intro hall
      rw [hall i] at hf
      cases hf

/-- C8 counterexample: the two-character name `"ab"` carries no `path`
override and does not end in `".js"`, yet `_getModulePath` returns it
unchanged instead of `"ab.js"`: `"ab".indexOf(".js")` and
`"ab".length - 3` are both `-1`. -/
theorem getModulePath_short_name_counterexample :
    ({name := "ab"} : Mod).path = none ∧
      getModulePath {name := "ab"} = "ab" ∧
      ("ab" : String) ≠ "ab" ++ ".js" := by decide

/-- C8 (amended): with a truthy `path` override the override is used;
otherwise the name is used unchanged exactly when the first occurrence of
`".js"` in the name sits at `length - 3` in JavaScript index arithmetic —
that is, either the name has length at least 3, `".js"` occurs at
`length - 3` and nowhere earlier, or the name has length exactly 2 and
contains no `".js"` at all (both indices being `-1`); in every other case
`".js"` is appended. -/
theorem getModulePath_spec (m : Mod) (hp : pathTruthy m = false) :
    getModulePath m =
        (if jsIndexOf m.name ".js" = (m.name.length : Int) - 3 then m.name
          else m.name ++ ".js") ∧
      (jsIndexOf m.name ".js" = (m.name.length : Int) - 3 ↔
        (3 ≤ m.name.length ∧
            chPrefix ".js".data (m.name.data.drop (m.name.length - 3)) = true ∧
            ∀ k, k < m.name.length - 3 →
              chPrefix ".js".data (m.name.data.drop k) = false) ∨
          (m.name.length = 2 ∧
            ∀ k, chPrefix ".js".data (m.name.data.drop k) = false)) := by
  constructor
  · unfold getModulePath
    rw [hp]
    by_cases hidx : jsIndexOf m.name ".js" = (m.name.length : Int) - 3 <;>
      simp [hidx]
  · by_cases hlen : 3 ≤ m.name.length
    · have hcast : (m.name.length : Int) - 3 = ((m.name.length - 3 : Nat) : Int) := by
        omega
      rw [hcast, jsIndexOf_eq_coe]
      constructor
      · intro ⟨h1, h2⟩
        exact Or.inl ⟨hlen, h1, h2⟩
      · intro h
        rcases h with ⟨_, h1, h2⟩ | ⟨h2, _⟩
        · exact ⟨h1, h2⟩
        · omega
    · constructor
      · intro hidx
        have h1 : jsIndexOf m.name ".js" = -1 := by
          unfold jsIndexOf at hidx ⊢
          cases h : firstOccAux ".js".data m.name.data 0 with
          | none => rfl
          | some i =>
            exfalso
            rw [h] at hidx
            dsimp only at hidx
            omega
        have hlen2 : m.name.length = 2 := by
          rw [h1] at hidx
          omega
        exact Or.inr ⟨hlen2, (jsIndexOf_eq_neg_one _ _).mp h1⟩
      · intro h
        rcases h with ⟨h3, _, _⟩ | ⟨h2, hall⟩
        · omega
        · rw [(jsIndexOf_eq_neg_one _ _).mpr hall]
          omega

/-- Closed instance of the amended C8 statement, at the name `"abc"`. -/
theorem getModulePath_spec_witness :
    pathTruthy {name := "abc"} = false ∧
      (getModulePath {name := "abc"} =
          (if jsIndexOf (Mod.name {name := "abc"}) ".js" =
              ((Mod.name {name := "abc"}).length : Int) - 3 then
            Mod.name ({name := "abc"} : Mod)
          else Mod.name ({name := "abc"} : Mod) ++ ".js") ∧
        (jsIndexOf (Mod.name {name := "abc"}) ".js" =
            ((Mod.name {name := "abc"}).length : Int) - 3 ↔
          (3 ≤ (Mod.name ({name := "abc"} : Mod)).length ∧
              chPrefix ".js".data
                ((Mod.name ({name := "abc"} : Mod)).data.drop
                  ((Mod.name ({name := "abc"} : Mod)).length - 3)) = true ∧
              ∀ k, k < (Mod.name ({name := "abc"} : Mod)).length - 3 →
                chPrefix ".js".data
                  ((Mod.name ({name := "abc"} : Mod)).data.drop k) = false) ∨
            ((Mod.name ({name := "abc"} : Mod)).length = 2 ∧
              ∀ k, chPrefix ".js".data
                ((Mod.name ({name := "abc"} : Mod)).data.drop k) = false))) :=
  ⟨by decide, getModulePath_spec {name := "abc"} (by decide)⟩

/-- C9: a module declared through `define` has its dependency list resolved
twice before it reaches the registry — once by `define` itself and once
more by `ConfigParser.addModule` during registration — so the stored
dependency list is `resolvePath name` applied twice to each original
dependency; in particular for referrer `"a/b"` the once-resolved
`"a/c"` is stored as `"a/a/c"`. -/
theorem defineRegister_double_resolution (st : DepState) (name : String)
    (deps : List String) (pend : Option Nat) (extra : Mod)
    (hregd : ∀ d ∈ deps.map (resolvePath name), d ≠ "exports" →
      (lookupA st.modules d).isSome = true) :
    (∃ st2, defineRegister st name deps pend extra = some st2 ∧
        ∃ m2, lookupA st2.modules name = some m2 ∧
          m2.dependencies =
            deps.map (fun d => resolvePath name (resolvePath name d))) ∧
      resolvePath "a/b" "a/c" = "a/a/c" := by
  refine ⟨?_, by decide⟩
  have hall : (defineDescriptor name deps pend extra).dependencies.all
      (fun d => d == "exports" || (lookupA st.modules d).isSome) = true := by
    rw [List.all_eq_true]
    intro d hd
    have hd' : d ∈ deps.map (resolvePath name) := by
      simpa [defineDescriptor, cpResolvePath] using hd
    by_cases he : d = "exports"
    · simp [he]
    · simp [he, hregd d hd' he]
  unfold defineRegister registerModule
  rw [if_pos hall]
  refine ⟨_, rfl, ?_⟩
  have hname : ∀ impl : Option Nat,
      ({defineDescriptor name deps pend extra with implementation := impl} : Mod).name
        = name := by
    intro impl
    simp [defineDescriptor, cpResolvePath]
  have hlook : ∀ impl : Option Nat,
      lookupA (addModule st
          {defineDescriptor name deps pend extra with implementation := impl}).modules
          name =
        some (cpResolvePath
          {defineDescriptor name deps pend extra with implementation := impl}) := by
    intro impl
    unfold addModule
    rw [← hname impl]
    exact lookupA_insertA_self _ _ _
  refine ⟨_, hlook _, ?_⟩
  simp [cpResolvePath, defineDescriptor, List.map_map, Function.comp]

/-- Closed instance of the C9 statement: defining `"a/b"` with dependency
`"./c"` stores dependency list `["a/a/c"]`. -/
theorem defineRegister_double_resolution_witness :
    ((∃ st2, defineRegister wDef "a/b" ["./c"] (some 5) {} = some st2 ∧
        ∃ m2, lookupA st2.modules "a/b" = some m2 ∧
          m2.dependencies =
            ["./c"].map (fun d => resolvePath "a/b" (resolvePath "a/b" d))) ∧
      resolvePath "a/b" "a/c" = "a/a/c") :=
  defineRegister_double_resolution wDef "a/b" ["./c"] (some 5) {}
    (by intro d hd he; simp at hd; subst hd; decide)

/-! ## URLBuilder -/

theorem getModulePath_load (m : Mod) :
    getModulePath {m with load := true} = getModulePath m := rfl

theorem fullPathTruthy_load (m : Mod) :
    fullPathTruthy {m with load := true} = fullPathTruthy m := rfl

theorem modulePathIn_update_load (reg : List (String × Mod)) (nm nm' : String) :
    modulePathIn (updateA reg nm (fun m => {m with load := true})) nm' =
      modulePathIn reg nm' := by
  unfold modulePathIn
  by_cases h : nm' = nm
  · subst h
    rw [lookupA_updateA_self]
    cases lookupA reg nm' <;> simp [getModulePath_load]
  · rw [lookupA_updateA_other _ _ _ _ h]

theorem buildLoop_ok (conf : LoaderConfig) :
    ∀ (names : List String) (reg : List (String × Mod)) (t n : List String),
      (∀ nm ∈ names, ∃ m, lookupA reg nm = some m ∧ fullPathTruthy m = false) →
      ∃ reg2,
        buildLoop conf reg names t n =
          some
            ((if conf.combine then t ++ names.map (modulePathIn reg) else t),
              (if conf.combine then n
                else
                  n ++ names.map
                    (fun nm =>
                      conf.url ++ normBase conf.basePath ++ modulePathIn reg nm)),
              reg2) := by
  intro names
  induction names with
  | nil =>
    intro reg t n _
    refine ⟨reg, ?_⟩
    simp [buildLoop]
  | cons nm rest ih =>
    intro reg t n h
    obtain ⟨u, hu, hfp⟩ := h nm (List.mem_cons_self _ _)
    have hrest : ∀ nm' ∈ rest,
        ∃ m, lookupA (updateA reg nm (fun m => {m with load := true})) nm' = some m ∧
          fullPathTruthy m = false := by
      intro nm' hnm'
      obtain ⟨m, hm, hf⟩ := h nm' (List.mem_cons_of_mem _ hnm')
      by_cases he : nm' = nm
      · subst he
        rw [hm] at hu
        injection hu with hu
        subst hu
        refine ⟨{m with load := true}, ?_, by rw [fullPathTruthy_load]; exact hf⟩
        rw [lookupA_updateA_self, hm]
        rfl
      · exact ⟨m, by rw [lookupA_updateA_other _ _ _ _ he]; exact hm, hf⟩
    have hmp : ∀ nm', modulePathIn (updateA reg nm (fun m => {m with load := true})) nm' =
        modulePathIn reg nm' := fun nm' => modulePathIn_update_load reg nm nm'
    have hmap : rest.map (modulePathIn (updateA reg nm (fun m => {m with load := true}))) =
        rest.map (modulePathIn reg) := List.map_congr_left (fun x _ => hmp x)
    have hgm : modulePathIn reg nm = getModulePath u := by
      unfold modulePathIn
      rw [hu]
      rfl
    by_cases hc : conf.combine
    · obtain ⟨reg2, hrec⟩ :=
        ih (updateA reg nm (fun m => {m with load := true}))
          (t ++ [getModulePath u]) n hrest
      refine ⟨reg2, ?_⟩
      simp only [buildLoop, hu, hfp, hc, if_true, Bool.false_eq_true, if_false]
      rw [hrec]
      simp [hc, hmap, hgm]
    · obtain ⟨reg2, hrec⟩ :=
        ih (updateA reg nm (fun m => {m with load := true})) t
          (n ++ [conf.url ++ normBase conf.basePath ++ getModulePath u]) hrest
      refine ⟨reg2, ?_⟩
      simp only [buildLoop, hu, hfp, hc, Bool.false_eq_true, if_false]
      rw [hrec]
      simp only [hc, Bool.false_eq_true, if_false]
      have hmapu : rest.map
          (fun nm' => conf.url ++ normBase conf.basePath ++
            modulePathIn (updateA reg nm (fun m => {m with load := true})) nm') =
          rest.map
            (fun nm' => conf.url ++ normBase conf.basePath ++ modulePathIn reg nm') :=
        List.map_congr_left (fun x _ => by rw [hmp x])
      simp [hmapu, hgm]

/-- C5: over an ordered module list none of whose members carries a
`fullPath`, `URLBuilder.build` emits — when the global `combine` flag is
on — exactly one URL of the form
`url ++ "?" ++ basePath ++ p1 ++ "&" ++ basePath ++ p2 ++ ...` covering
every listed module (with `basePath` slash-terminated), and — when
`combine` is off — one URL `url ++ basePath ++ path` per module. -/
theorem build_spec (conf : LoaderConfig) (reg : List (String × Mod))
    (names : List String)
    (hfp : ∀ nm ∈ names, ∃ m, lookupA reg nm = some m ∧ m.fullPath = none)
    (hne : names ≠ []) :
    (build conf reg names).map Prod.fst =
      some
        (if conf.combine then
          [conf.url ++ "?" ++ normBase conf.basePath ++
            jsJoin ("&" ++ normBase conf.basePath) (names.map (modulePathIn reg))]
        else
          names.map
            (fun nm => conf.url ++ normBase conf.basePath ++ modulePathIn reg nm)) := by
  have hfp' : ∀ nm ∈ names, ∃ m, lookupA reg nm = some m ∧ fullPathTruthy m = false := by
    intro nm hnm
    obtain ⟨m, hm, hf⟩ := hfp nm hnm
    exact ⟨m, hm, by simp [fullPathTruthy, hf]⟩
  obtain ⟨reg2, hb⟩ := buildLoop_ok conf names reg [] [] hfp'
  obtain ⟨nm0, rest0, rfl⟩ : ∃ a l, names = a :: l := by
    cases names with
    | nil => exact absurd rfl hne
    | cons a l => exact ⟨a, l, rfl⟩
  unfold build
  rw [hb]
  by_cases hc : conf.combine
  · simp [hc, List.isEmpty]
  · simp [hc]

/-! ## Pointwise relation machinery -/

theorem PW_refl {α : Type} (R : (String × α) → (String × α) → Prop)
    (hR : ∀ p, R p p) : ∀ l, PW R l l := by
  intro l
  induction l with
  | nil => trivial
  | cons p rest ih => exact ⟨hR p, ih⟩

theorem PW_trans {α : Type} {R S T : (String × α) → (String × α) → Prop}
    (h : ∀ a b c, R a b → S b c → T a c) :
    ∀ l m n, PW R l m → PW S m n → PW T l n := by
  intro l
  induction l with
  | nil =>
    intro m n h1 h2
    cases m with
    | nil =>
      cases n with
      | nil => trivial
      | cons q n2 => exact absurd h2 (by simp [PW])
    | cons p m2 => exact absurd h1 (by simp [PW])
  | cons p l2 ih =>
    intro m n h1 h2
    cases m with
    | nil => exact absurd h1 (by simp [PW])
    | cons q m2 =>
      cases n with
      | nil => exact absurd h2 (by simp [PW])
      | cons r n2 =>
        obtain ⟨h1a, h1b⟩ := h1
        obtain ⟨h2a, h2b⟩ := h2
        exact ⟨h _ _ _ h1a h2a, ih m2 n2 h1b h2b⟩

theorem PW_and {α : Type} {R S : (String × α) → (String × α) → Prop} :
    ∀ l m, PW R l m → PW S l m → PW (fun p q => R p q ∧ S p q) l m := by
  intro l
  induction l with
  | nil =>
    intro m h1 h2
    cases m with
    | nil => trivial
    | cons q m2 => exact absurd h1 (by simp [PW])
  | cons p l2 ih =>
    intro m h1 h2
    cases m with
    | nil => exact absurd h1 (by simp [PW])
    | cons q m2 =>
      obtain ⟨h1a, h1b⟩ := h1
      obtain ⟨h2a, h2b⟩ := h2
      exact ⟨⟨h1a, h2a⟩, ih m2 h1b h2b⟩

theorem PW_length {α : Type} {R : (String × α) → (String × α) → Prop} :
    ∀ l m, PW R l m → l.length = m.length := by
  intro l
  induction l with
  | nil =>
    intro m h
    cases m with
    | nil => rfl
    | cons q m2 => exact absurd h (by simp [PW])
  | cons p l2 ih =>
    intro m h
    cases m with
    | nil => exact absurd h (by simp [PW])
    | cons q m2 => simpa using ih m2 h.2

theorem PW_lookup {α : Type} {R : (String × α) → (String × α) → Prop}
    (hkey : ∀ p q, R p q → q.1 = p.1) :
    ∀ l m, PW R l m → ∀ k v, lookupA l k = some v →
      ∃ w, lookupA m k = some w ∧ R (k, v) (k, w) := by
  intro l
  induction l with
  | nil =>
    intro m h k v hv
    simp [lookupA] at hv
  | cons p l2 ih =>
    intro m h k v hv
    cases m with
    | nil => exact absurd h (by simp [PW])
    | cons q m2 =>
      obtain ⟨hpq, hrest⟩ := h
      obtain ⟨pk, pv⟩ := p
      obtain ⟨qk, qv⟩ := q
      have hq : qk = pk := hkey _ _ hpq
      subst hq
      by_cases hk : qk = k
      · subst hk
        simp only [lookupA, if_pos rfl] at hv
        injection hv with hv
        subst hv
        exact ⟨qv, by simp [lookupA], hpq⟩
      · simp only [lookupA, if_neg hk] at hv ⊢
        exact ih m2 hrest k v hv

theorem PW_lookup_none {α : Type} {R : (String × α) → (String × α) → Prop}
    (hkey : ∀ p q, R p q → q.1 = p.1) :
    ∀ l m, PW R l m → ∀ k, lookupA l k = none → lookupA m k = none := by
  intro l
  induction l with
  | nil =>
    intro m h k _
    cases m with
    | nil => rfl
    | cons q m2 => exact absurd h (by simp [PW])
  | cons p l2 ih =>
    intro m h k hv
    cases m with
    | nil => exact absurd h (by simp [PW])
    | cons q m2 =>
      obtain ⟨hpq, hrest⟩ := h
      obtain ⟨pk, pv⟩ := p
      obtain ⟨qk, qv⟩ := q
      have hq : qk = pk := hkey _ _ hpq
      subst hq
      by_cases hk : qk = k
      · subst hk
        simp only [lookupA, if_pos rfl] at hv
        cases hv
      · simp only [lookupA, if_neg hk] at hv ⊢
        exact ih m2 hrest k hv

theorem PW_isSome {α : Type} {R : (String × α) → (String × α) → Prop}
    (hkey : ∀ p q, R p q → q.1 = p.1) {l m : List (String × α)}
    (h : PW R l m) (k : String) :
    (lookupA m k).isSome = (lookupA l k).isSome := by
  cases hl : lookupA l k with
  | none => rw [PW_lookup_none hkey _ _ h _ hl]
  | some v =>
    obtain ⟨w, hw, _⟩ := PW_lookup hkey _ _ h _ _ hl
    rw [hw]
    rfl

theorem PW_mem_rev {α : Type} {R : (String × α) → (String × α) → Prop} :
    ∀ l m, PW R l m → ∀ q ∈ m, ∃ p ∈ l, R p q := by
  intro l
  induction l with
  | nil =>
    intro m h q hq
    cases m with
    | nil => simp at hq
    | cons q0 m2 => exact absurd h (by simp [PW])
  | cons p l2 ih =>
    intro m h q hq
    cases m with
    | nil => exact absurd h (by simp [PW])
    | cons q0 m2 =>
      obtain ⟨hpq, hrest⟩ := h
      rcases List.mem_cons.mp hq with rfl | hq2
      · exact ⟨p, List.mem_cons_self _ _, hpq⟩
      · obtain ⟨p2, hp2, hr2⟩ := ih m2 hrest q hq2
        exact ⟨p2, List.mem_cons_of_mem _ hp2, hr2⟩

theorem PW_updateA {α : Type} {R : (String × α) → (String × α) → Prop}
    (hrefl : ∀ p, R p p) (k : String) (f : α → α)
    (hupd : ∀ p : String × α, p.1 = k → R p (p.1, f p.2)) :
    ∀ l, PW R l (updateA l k f) := by
  intro l
  induction l with
  | nil => trivial
  | cons p l2 ih =>
    obtain ⟨pk, pv⟩ := p
    by_cases hk : pk = k
    · subst hk
      simp only [updateA, if_pos rfl]
      exact ⟨hupd (pk, pv) rfl, PW_refl R hrefl l2⟩
    · simp only [updateA, if_neg hk]
      exact ⟨hrefl _, ih⟩

theorem PW_filter_len {α : Type} {R : (String × α) → (String × α) → Prop}
    {pred : String × α → Bool} (hpred : ∀ p q, R p q → pred q = pred p) :
    ∀ l m, PW R l m → (m.filter pred).length = (l.filter pred).length := by
  intro l
  induction l with
  | nil =>
    intro m h
    cases m with
    | nil => rfl
    | cons q m2 => exact absurd h (by simp [PW])
  | cons p l2 ih =>
    intro m h
    cases m with
    | nil => exact absurd h (by simp [PW])
    | cons q m2 =>
      obtain ⟨hpq, hrest⟩ := h
      rw [List.filter_cons, List.filter_cons, hpred _ _ hpq]
      cases pred p <;> simp [ih m2 hrest]

/-! ## Step-relation machinery -/

theorem coreRel_refl : ∀ p, coreRel p p :=
  fun _ => ⟨rfl, rfl, rfl, rfl, id, id⟩

theorem coreRel_key : ∀ p q, coreRel p q → q.1 = p.1 := fun _ _ h => h.1

theorem coreRel_trans : ∀ a b c, coreRel a b → coreRel b c → coreRel a c := by
  intro a b c h1 h2
  exact ⟨h2.1.trans h1.1, h2.2.1.trans h1.2.1, h2.2.2.1.trans h1.2.2.1,
    h2.2.2.2.1.trans h1.2.2.2.1, fun h => h2.2.2.2.2.1 (h1.2.2.2.2.1 h),
    fun h => h2.2.2.2.2.2 (h1.2.2.2.2.2 h)⟩

theorem StepRel_refl (st : DepState) : StepRel st st :=
  ⟨rfl, PW_refl _ coreRel_refl _,
    ⟨[], (List.append_nil _).symm, List.nodup_nil, by simp⟩, ⟨[], rfl⟩⟩

theorem StepRel_trans {s1 s2 s3 : DepState} (h1 : StepRel s1 s2)
    (h2 : StepRel s2 s3) : StepRel s1 s3 := by
  refine ⟨h2.condIdx.trans h1.condIdx,
    PW_trans coreRel_trans _ _ _ h1.core h2.core, ?_, ?_⟩
  · obtain ⟨e1, hq1, hn1, hf1⟩ := h1.queue
    obtain ⟨e2, hq2, hn2, hf2⟩ := h2.queue
    refine ⟨e1 ++ e2, by rw [hq2, hq1, List.append_assoc], ?_, ?_⟩
    · rw [List.nodup_append]
      refine ⟨hn1, hn2, ?_⟩
      intro x hx1 hx2
      have := (hf2 x hx2).1
      rw [hq1] at this
      exact this (List.mem_append_right _ hx1)
    · intro x hx
      rcases List.mem_append.mp hx with hx1 | hx2
      · exact hf1 x hx1
      · constructor
        · intro hmem
          exact (hf2 x hx2).1 (by rw [hq1]; exact List.mem_append_left _ hmem)
        · rw [← PW_isSome coreRel_key h1.core x]
          exact (hf2 x hx2).2
  · obtain ⟨n1, hr1⟩ := h1.result
    obtain ⟨n2, hr2⟩ := h2.result
    exact ⟨n2 ++ n1, by rw [hr2, hr1, List.append_assoc]⟩

theorem depsOf_stable {st st2 : DepState}
    (h : PW coreRel st.modules st2.modules) : ∀ x, depsOf st2 x = depsOf st x := by
  intro x
  unfold depsOf
  cases hl : lookupA st.modules x with
  | none => rw [PW_lookup_none coreRel_key _ _ h _ hl]
  | some m =>
    obtain ⟨w, hw, hr⟩ := PW_lookup coreRel_key _ _ h _ _ hl
    rw [hw]
    dsimp only
    have hd : w.dependencies = m.dependencies := hr.2.2.1
    rw [hd]

theorem transGen_transport {st st2 : DepState}
    (hd : ∀ x, depsOf st2 x = depsOf st x) {a b : String}
    (h : Relation.TransGen (edgeOf st2) a b) :
    Relation.TransGen (edgeOf st) a b := by
  refine Relation.TransGen.mono ?_ h
  intro u v huv
  unfold edgeOf at huv ⊢
  rw [← hd u]
  exact huv

theorem Acyc_transport {st st2 : DepState} (ha : Acyc st)
    (h : PW coreRel st.modules st2.modules) : Acyc st2 := by
  intro n hTG
  exact ha n (transGen_transport (depsOf_stable h) hTG)

theorem PW_keys_eq {α : Type} {R : (String × α) → (String × α) → Prop}
    (hkey : ∀ p q, R p q → q.1 = p.1) :
    ∀ l m, PW R l m → m.map Prod.fst = l.map Prod.fst := by
  intro l
  induction l with
  | nil =>
    intro m h
    cases m with
    | nil => rfl
    | cons q m2 => exact absurd h (by simp [PW])
  | cons p l2 ih =>
    intro m h
    cases m with
    | nil => exact absurd h (by simp [PW])
    | cons q m2 =>
      obtain ⟨hpq, hrest⟩ := h
      simp only [List.map_cons, hkey _ _ hpq, ih m2 hrest]

theorem lookupA_eq_none_iff {α : Type} :
    ∀ (l : List (String × α)) (k : String),
      lookupA l k = none ↔ k ∉ l.map Prod.fst := by
  intro l
  induction l with
  | nil => intro k; simp [lookupA]
  | cons p l2 ih =>
    intro k
    obtain ⟨pk, pv⟩ := p
    by_cases hk : pk = k
    · subst hk
      simp [lookupA]
    · simp [lookupA, hk, ih k, Ne.symm hk]

theorem tmpOf_lookup {st : DepState} {k : String} {m : Mod}
    (hl : lookupA st.modules k = some m) : tmpOf st k = m.tmpMark := by
  unfold tmpOf tmpOfL
  rw [hl]

theorem mark_mono_lookup {st st2 : DepState}
    (hc : PW coreRel st.modules st2.modules) {k : String} {m : Mod}
    (hl : lookupA st.modules k = some m) (hm : m.mark = true) :
    ∃ m2, lookupA st2.modules k = some m2 ∧ m2.mark = true := by
  obtain ⟨w, hw, hr⟩ := PW_lookup coreRel_key _ _ hc _ _ hl
  exact ⟨w, hw, hr.2.2.2.2.1 hm⟩

theorem WF_transport {st st2 : DepState} (hwf : WF st) (h : StepRel st st2) :
    WF st2 := by
  refine ⟨?_, ?_, ?_, ?_⟩
  · rw [PW_keys_eq coreRel_key _ _ h.core]
    exact hwf.nodupKeys
  · intro q hq
    obtain ⟨p, hp, hr⟩ := PW_mem_rev _ _ h.core q hq
    rw [hr.2.1, hwf.keys p hp, hr.1]
  · intro q hq d hd hne
    obtain ⟨p, hp, hr⟩ := PW_mem_rev _ _ h.core q hq
    rw [PW_isSome coreRel_key h.core d]
    exact hwf.depsReg p hp d (by rw [← hr.2.2.1]; exact hd) hne
  · intro q hq cn hcn
    rw [h.condIdx] at hq
    have hc := hwf.conds q hq cn hcn
    cases hl : lookupA st.modules cn with
    | none => rw [hl] at hc; simp at hc
    | some m =>
      rw [hl] at hc
      obtain ⟨w, hw, hr⟩ := PW_lookup coreRel_key _ _ h.core _ _ hl
      rw [hw]
      have hcnd : w.condition = m.condition := hr.2.2.2.1
      simpa [hcnd] using hc

/-! ## Dependency-first order and cycles -/

theorem DFR_congr {g g2 : String → List String} (hg : ∀ x, g x = g2 x) :
    ∀ l, DFR g l → DFR g2 l := by
  intro l
  induction l with
  | nil => intro h; trivial
  | cons x rest ih =>
    intro h
    exact ⟨fun d hd => h.1 d (by rw [hg x]; exact hd), ih h.2⟩

theorem DFR_split {g : String → List String} :
    ∀ pre x post, DFR g (pre ++ x :: post) → ∀ d ∈ g x, d ∈ post := by
  intro pre
  induction pre with
  | nil => intro x post h d hd; exact h.1 d hd
  | cons y pre2 ih => intro x post h d hd; exact ih x post h.2 d hd

theorem DFR_reverse_split {g : String → List String} {r : List String}
    (hd : DFR g r) {pre post : List String} {x : String}
    (hrev : r.reverse = pre ++ x :: post) : ∀ d ∈ g x, d ∈ pre := by
  have hr : r = post.reverse ++ x :: pre.reverse := by
    have h2 := congrArg List.reverse hrev
    rw [List.reverse_reverse] at h2
    rw [h2]
    simp
  intro d hdx
  rw [hr] at hd
  exact List.mem_reverse.mp (DFR_split _ _ _ hd d hdx)

theorem nodup_split_unique {a : String} :
    ∀ (r p1 s1 p2 s2 : List String), r.Nodup →
      r = p1 ++ a :: s1 → r = p2 ++ a :: s2 → p1.length = p2.length := by
  intro r
  induction r with
  | nil =>
    intro p1 s1 p2 s2 _ h1 _
    exact absurd h1.symm (by simp)
  | cons x rest ih =>
    intro p1 s1 p2 s2 hn h1 h2
    cases p1 with
    | nil =>
      cases p2 with
      | nil => rfl
      | cons y p22 =>
        simp at h1 h2
        obtain ⟨hxa, _⟩ := h1
        obtain ⟨_, hrest⟩ := h2
        exfalso
        have : a ∈ rest := by
          rw [hrest]
          exact List.mem_append_right _ (List.mem_cons_self _ _)
        rw [← hxa] at this
        exact (List.nodup_cons.mp hn).1 this
    | cons y p12 =>
      cases p2 with
      | nil =>
        simp at h1 h2
        obtain ⟨_, hrest⟩ := h1
        obtain ⟨hxa, _⟩ := h2
        exfalso
        have : a ∈ rest := by
          rw [hrest]
          exact List.mem_append_right _ (List.mem_cons_self _ _)
        rw [← hxa] at this
        exact (List.nodup_cons.mp hn).1 this
      | cons z p22 =>
        simp at h1 h2
        obtain ⟨_, hr1⟩ := h1
        obtain ⟨_, hr2⟩ := h2
        have := ih p12 s1 p22 s2 (List.nodup_cons.mp hn).2 hr1 hr2
        simp [this]

theorem DFR_reach_split {g : String → List String} {r : List String}
    (hd : DFR g r) {a b : String}
    (htg : Relation.TransGen (fun u v => v ∈ g u) a b) :
    ∀ p1 s1, r = p1 ++ a :: s1 →
      ∃ p2 s2, r = p2 ++ b :: s2 ∧ p1.length < p2.length := by
  induction htg with
  | @single b2 hab =>
    intro p1 s1 hsplit
    have hb : b2 ∈ s1 := by
      have hd2 : DFR g (p1 ++ a :: s1) := hsplit ▸ hd
      exact DFR_split _ _ _ hd2 b2 hab
    obtain ⟨u, v, huv⟩ := List.append_of_mem hb
    refine ⟨p1 ++ a :: u, v, ?_, by simp⟩
    rw [hsplit, huv]
    simp
  | @tail c2 b2 hac hcb ih =>
    intro p1 s1 hsplit
    obtain ⟨p2, s2, hsp2, hlen⟩ := ih p1 s1 hsplit
    have hb : b2 ∈ s2 := by
      have hd2 : DFR g (p2 ++ c2 :: s2) := hsp2 ▸ hd
      exact DFR_split _ _ _ hd2 b2 hcb
    obtain ⟨u, v, huv⟩ := List.append_of_mem hb
    refine ⟨p2 ++ c2 :: u, v, ?_, ?_⟩
    · rw [hsp2, huv]
      simp
    · simp
      omega

theorem DFR_no_cycle {g : String → List String} {r : List String}
    (hd : DFR g r) (hn : r.Nodup) {a : String} (ha : a ∈ r)
    (hcyc : Relation.TransGen (fun u v => v ∈ g u) a a) : False := by
  obtain ⟨p1, s1, h1⟩ := List.append_of_mem ha
  obtain ⟨p2, s2, h2, hlen⟩ := DFR_reach_split hd hcyc p1 s1 h1
  have := nodup_split_unique r p1 s1 p2 s2 hn h1 h2
  omega

theorem reach_marked {P : String → Prop} {edge : String → String → Prop}
    (hcl : ∀ u v, P u → edge u v → P v) {s m : String}
    (h : Relation.ReflTransGen edge s m) (hs : P s) : P m := by
  induction h with
  | refl => exact hs
  | tail h1 h2 ih => exact hcl _ _ ih h2

/-! ## Fuel accounting -/

theorem countUnTmp_le (st : DepState) : countUnTmp st ≤ st.modules.length :=
  List.length_filter_le _ _

theorem countUnTmp_eq_aux :
    ∀ (l l2 : List (String × Mod)),
      (l.map Prod.fst).Nodup → PW coreRel l l2 →
      (∀ k, tmpOfL l2 k = tmpOfL l k) →
      (l2.filter (fun p => !p.2.tmpMark)).length =
        (l.filter (fun p => !p.2.tmpMark)).length := by
  intro l
  induction l with
  | nil =>
    intro l2 _ h _
    cases l2 with
    | nil => rfl
    | cons q m2 => exact absurd h (by simp [PW])
  | cons p l2 ih =>
    intro m hnd h htmp
    cases m with
    | nil => exact absurd h (by simp [PW])
    | cons q m2 =>
      obtain ⟨hpq, hrest⟩ := h
      obtain ⟨pk, pv⟩ := p
      obtain ⟨qk, qv⟩ := q
      have hkeyq : qk = pk := coreRel_key _ _ hpq
      subst hkeyq
      have hndtl : (l2.map Prod.fst).Nodup :=
        (List.nodup_cons.mp (by simpa using hnd)).2
      have hndhd : qk ∉ l2.map Prod.fst :=
        (List.nodup_cons.mp (by simpa using hnd)).1
      have hhead : qv.tmpMark = pv.tmpMark := by
        have hthis := htmp qk
        unfold tmpOfL at hthis
        simpa [lookupA] using hthis
      have htail : ∀ k, tmpOfL m2 k = tmpOfL l2 k := by
        intro k
        by_cases hk : qk = k
        · subst hk
          have hl2 : lookupA l2 qk = none := by
            rw [lookupA_eq_none_iff]
            exact hndhd
          have hm2 : lookupA m2 qk = none := by
            rw [lookupA_eq_none_iff, PW_keys_eq coreRel_key l2 m2 hrest]
            rw [lookupA_eq_none_iff] at hl2
            exact hl2
          unfold tmpOfL
          rw [hl2, hm2]
        · have hthis := htmp k
          unfold tmpOfL at hthis ⊢
          simp only [lookupA, if_neg hk] at hthis
          exact hthis
      have hrec := ih m2 hndtl hrest htail
      rw [List.filter_cons, List.filter_cons]
      by_cases hcase : pv.tmpMark = true
      · simp [hcase, hhead, hrec]
      · simp [hcase, hhead, hrec]

theorem countUnTmp_eq_of_tmpEq {st st2 : DepState}
    (hnd : (st.modules.map Prod.fst).Nodup)
    (hc : PW coreRel st.modules st2.modules) (h : TmpEq st st2) :
    countUnTmp st2 = countUnTmp st :=
  countUnTmp_eq_aux st.modules st2.modules hnd hc h

theorem count_filter_update :
    ∀ (l : List (String × Mod)) (k : String) (v : Mod),
      lookupA l k = some v → v.tmpMark = false →
      ((updateA l k (fun m => {m with tmpMark := true})).filter
          (fun p => !p.2.tmpMark)).length + 1 =
        (l.filter (fun p => !p.2.tmpMark)).length := by
  intro l
  induction l with
  | nil => intro k v hv _; simp [lookupA] at hv
  | cons p rest ih =>
    intro k v hv htm
    obtain ⟨pk, pv⟩ := p
    by_cases hk : pk = k
    · subst hk
      simp [lookupA] at hv
      subst hv
      simp [updateA, List.filter_cons, htm]
    · simp only [lookupA, if_neg hk] at hv
      simp only [updateA, if_neg hk]
      rw [List.filter_cons, List.filter_cons]
      have hrec := ih k v hv htm
      cases hcase : !pv.tmpMark <;> simp [hcase] <;> omega

theorem countUnTmp_set_tmp {st : DepState} {k : String} {v : Mod}
    (hl : lookupA st.modules k = some v) (hv : v.tmpMark = false) :
    countUnTmp
        {st with modules := updateA st.modules k (fun m => {m with tmpMark := true})}
        + 1 = countUnTmp st :=
  count_filter_update st.modules k v hl hv

/-! ## Lookup characterizations and transports -/

theorem lookupA_update_char {α : Type} (l : List (String × α)) (key k : String)
    (f : α → α) :
    lookupA (updateA l key f) k =
      if k = key then (lookupA l k).map f else lookupA l k := by
  by_cases hk : k = key
  · subst hk
    rw [if_pos rfl]
    exact lookupA_updateA_self l k f
  · rw [if_neg hk]
    exact lookupA_updateA_other l key k f hk

theorem tmpOfL_lookup {l : List (String × Mod)} {k : String} {m : Mod}
    (h : lookupA l k = some m) : tmpOfL l k = m.tmpMark := by
  unfold tmpOfL
  rw [h]

theorem tmpOfL_none {l : List (String × Mod)} {k : String}
    (h : lookupA l k = none) : tmpOfL l k = false := by
  unfold tmpOfL
  rw [h]

theorem depsOf_update {st : DepState} {key : String} (f : Mod → Mod)
    (hf : ∀ m, (f m).dependencies = m.dependencies) :
    ∀ x, depsOf {st with modules := updateA st.modules key f} x = depsOf st x := by
  intro x
  unfold depsOf
  show (match lookupA (updateA st.modules key f) x with
    | none => []
    | some m => m.dependencies.filter (fun d => d != "exports")) = _
  rw [lookupA_update_char]
  by_cases hx : x = key
  · rw [if_pos hx]
    cases lookupA st.modules x with
    | none => rfl
    | some m => simp [hf m]
  · rw [if_neg hx]

theorem HT_transport {st st2 : DepState}
    (hc : PW coreRel st.modules st2.modules) (ht : TmpEq st st2) (d : String)
    (hht : HT st d) : HT st2 d := by
  intro k m2 hl2 htm2
  have htk : tmpOfL st.modules k = true := by
    rw [← ht k]
    rw [tmpOfL_lookup hl2]
    exact htm2
  cases hl : lookupA st.modules k with
  | none => rw [tmpOfL_none hl] at htk; cases htk
  | some m =>
    rw [tmpOfL_lookup hl] at htk
    have htg := hht k m hl htk
    refine Relation.TransGen.mono ?_ htg
    intro u v huv
    unfold edgeOf at huv ⊢
    rw [depsOf_stable hc u]
    exact huv

theorem notTmp_transport {st st2 : DepState} (ht : TmpEq st st2) {d : String}
    (h : ∀ m, lookupA st.modules d = some m → m.tmpMark = false) :
    ∀ m2, lookupA st2.modules d = some m2 → m2.tmpMark = false := by
  intro m2 hl2
  have h2 := ht d
  rw [tmpOfL_lookup hl2] at h2
  cases hl : lookupA st.modules d with
  | none => rw [tmpOfL_none hl] at h2; exact h2
  | some m => rw [tmpOfL_lookup hl] at h2; rw [h2]; exact h m hl

theorem NoTmp_transport {st st2 : DepState} (ht : TmpEq st st2)
    (h : NoTmp st) : NoTmp st2 := by
  intro k m2 hl2
  exact notTmp_transport ht (fun m hm => h k m hm) m2 hl2

/-! ## Invariant transport through the elementary mutations -/

theorem Inv_queue_mono {st st2 : DepState} (hinv : Inv st)
    (hmods : st2.modules = st.modules)
    (hcid : st2.conditionalModules = st.conditionalModules)
    (hres : st2.result = st.result)
    (hq : ∀ x ∈ st.queue, x ∈ st2.queue) : Inv st2 := by
  refine ⟨?_, ?_, ?_, ?_, ?_, ?_, ?_⟩
  · intro k m hl
    rw [hmods] at hl
    rw [hres]
    exact hinv.mem_iff k m hl
  · rw [hres]; exact hinv.nodup
  · intro x hx
    rw [hres] at hx
    rw [hmods]
    exact hinv.regd x hx
  · rw [hres]
    refine DFR_congr ?_ _ hinv.dfr
    intro x
    unfold depsOf
    rw [hmods]
  · intro k m hl
    rw [hmods] at hl
    exact hinv.disj k m hl
  · intro k m hl
    rw [hmods] at hl
    rw [hcid]
    exact hinv.mc k m hl
  · intro k m hl hcm lst hlst cn hcn cm hcmod c hc htest
    rw [hmods] at hl hcmod
    rw [hcid] at hlst
    exact hq _ (hinv.condDone k m hl hcm lst hlst cn hcn cm hcmod c hc htest)

theorem Inv_condMark_update {st st2 : DepState} {key : String} (hinv : Inv st)
    (hmods : st2.modules =
      updateA st.modules key (fun m => {m with conditionalMark := true}))
    (hcid : st2.conditionalModules = st.conditionalModules)
    (hres : st2.result = st.result)
    (hq : ∀ x ∈ st.queue, x ∈ st2.queue)
    (hoblig : ∀ m, lookupA st.modules key = some m →
      ∀ lst, lookupA st.conditionalModules m.name = some lst →
        ∀ cn ∈ lst, ∀ cm, lookupA st.modules cn = some cm →
          ∀ c, cm.condition = some c → c.test = true → cm.name ∈ st2.queue) :
    Inv st2 := by
  have hchar : ∀ k, lookupA st2.modules k =
      if k = key then
        (lookupA st.modules k).map (fun m => {m with conditionalMark := true})
      else lookupA st.modules k := by
    intro k
    rw [hmods]
    exact lookupA_update_char _ _ _ _
  have hcorr : ∀ k m2, lookupA st2.modules k = some m2 →
      ∃ m, lookupA st.modules k = some m ∧ m2.name = m.name ∧
        m2.dependencies = m.dependencies ∧ m2.condition = m.condition ∧
        m2.mark = m.mark ∧ m2.tmpMark = m.tmpMark ∧
        (m.conditionalMark = true → m2.conditionalMark = true) := by
    intro k m2 hl2
    rw [hchar k] at hl2
    by_cases hk : k = key
    · rw [if_pos hk] at hl2
      cases hl : lookupA st.modules k with
      | none => rw [hl] at hl2; cases hl2
      | some m =>
        rw [hl] at hl2
        injection hl2 with hl2
        subst hl2
        exact ⟨m, rfl, rfl, rfl, rfl, rfl, rfl, fun _ => rfl⟩
    · rw [if_neg hk] at hl2
      exact ⟨m2, hl2, rfl, rfl, rfl, rfl, rfl, fun h => h⟩
  refine ⟨?_, ?_, ?_, ?_, ?_, ?_, ?_⟩
  · intro k m2 hl2
    obtain ⟨m, hl, _, _, _, hmk, _, _⟩ := hcorr k m2 hl2
    rw [hres, hmk]
    exact hinv.mem_iff k m hl
  · rw [hres]; exact hinv.nodup
  · intro x hx
    rw [hres] at hx
    rw [hchar x]
    by_cases hk : x = key
    · rw [if_pos hk]
      have hreg := hinv.regd x hx
      cases hl : lookupA st.modules x with
      | none => rw [hl] at hreg; simp at hreg
      | some m => rfl
    · rw [if_neg hk]
      exact hinv.regd x hx
  · rw [hres]
    refine DFR_congr ?_ _ hinv.dfr
    intro x
    unfold depsOf
    rw [hchar x]
    by_cases hk : x = key
    · rw [if_pos hk]
      cases lookupA st.modules x with
      | none => rfl
      | some m => rfl
    · rw [if_neg hk]
  · intro k m2 hl2 hmk
    obtain ⟨m, hl, _, _, _, hmkeq, htmeq, _⟩ := hcorr k m2 hl2
    rw [htmeq]
    exact hinv.disj k m hl (by rw [← hmkeq]; exact hmk)
  · intro k m2 hl2 hmk
    obtain ⟨m, hl, hnm, _, _, hmkeq, _, hcmono⟩ := hcorr k m2 hl2
    rw [hcid, hnm]
    rcases hinv.mc k m hl (by rw [← hmkeq]; exact hmk) with hc | hc
    · exact Or.inl (hcmono hc)
    · exact Or.inr hc
  · intro k m2 hl2 hcm2 lst hlst cn hcn cm2 hcmod2 c hc2 htest
    obtain ⟨m, hl, hnm, _, _, _, _, _⟩ := hcorr k m2 hl2
    obtain ⟨cm, hcl, hcnm, _, hccond, _, _, _⟩ := hcorr cn cm2 hcmod2
    rw [hcid, hnm] at hlst
    rw [hcnm]
    by_cases hmcm : m.conditionalMark = true
    · exact hq _ (hinv.condDone k m hl hmcm lst hlst cn hcn cm hcl c
        (by rw [← hccond]; exact hc2) htest)
    · -- the entry was condMark-ed by this very update, so k = key
      have hkk : k = key := by
        by_contra hkk
        rw [hchar k, if_neg hkk] at hl2
        rw [hl2] at hl
        injection hl with hl
        subst hl
        rw [hcm2] at hmcm
        exact hmcm rfl
      subst hkk
      exact hoblig m hl lst hlst cn hcn cm hcl c
        (by rw [← hccond]; exact hc2) htest

theorem Inv_setTmp {st : DepState} {key : String} {e : Mod} (hinv : Inv st)
    (hlk : lookupA st.modules key = some e) (hmark : e.mark = false) :
    Inv {st with
          modules := updateA st.modules key (fun m => {m with tmpMark := true})} := by
  have hchar : ∀ k,
      lookupA (updateA st.modules key (fun m => {m with tmpMark := true})) k =
        if k = key then
          (lookupA st.modules k).map (fun m => {m with tmpMark := true})
        else lookupA st.modules k := fun k => lookupA_update_char _ _ _ _
  have hcorr : ∀ k m2,
      lookupA (updateA st.modules key (fun m => {m with tmpMark := true})) k =
        some m2 →
      ∃ m, lookupA st.modules k = some m ∧ m2.name = m.name ∧
        m2.dependencies = m.dependencies ∧ m2.condition = m.condition ∧
        m2.mark = m.mark ∧ m2.conditionalMark = m.conditionalMark ∧
        (m2.tmpMark = m.tmpMark ∨ (k = key ∧ m2.tmpMark = true)) := by
    intro k m2 hl2
    rw [hchar k] at hl2
    by_cases hk : k = key
    · rw [if_pos hk] at hl2
      cases hl : lookupA st.modules k with
      | none => rw [hl] at hl2; cases hl2
      | some m =>
        rw [hl] at hl2
        injection hl2 with hl2
        subst hl2
        exact ⟨m, rfl, rfl, rfl, rfl, rfl, rfl, Or.inr ⟨hk, rfl⟩⟩
    · rw [if_neg hk] at hl2
      exact ⟨m2, hl2, rfl, rfl, rfl, rfl, rfl, Or.inl rfl⟩
  refine ⟨?_, ?_, ?_, ?_, ?_, ?_, ?_⟩
  · intro k m2 hl2
    obtain ⟨m, hl, _, _, _, hmk, _, _⟩ := hcorr k m2 hl2
    rw [hmk]
    exact hinv.mem_iff k m hl
  · exact hinv.nodup
  · intro x hx
    rw [hchar x]
    by_cases hk : x = key
    · rw [if_pos hk]
      have hreg := hinv.regd x hx
      cases hl : lookupA st.modules x with
      | none => rw [hl] at hreg; simp at hreg
      | some m => rfl
    · rw [if_neg hk]
      exact hinv.regd x hx
  · refine DFR_congr ?_ _ hinv.dfr
    intro x
    exact (depsOf_update (fun m => {m with tmpMark := true}) (fun m => rfl) x).symm
  · intro k m2 hl2 hmk2
    obtain ⟨m, hl, _, _, _, hmk, _, htm⟩ := hcorr k m2 hl2
    rcases htm with htm | ⟨hkk, _⟩
    · rw [htm]
      exact hinv.disj k m hl (by rw [← hmk]; exact hmk2)
    · subst hkk
      rw [hlk] at hl
      injection hl with hl
      subst hl
      rw [hmk] at hmk2
      rw [hmk2] at hmark
      cases hmark
  · intro k m2 hl2 hmk2
    obtain ⟨m, hl, hnm, _, _, hmk, hcm, _⟩ := hcorr k m2 hl2
    rw [hnm, hcm]
    exact hinv.mc k m hl (by rw [← hmk]; exact hmk2)
  · intro k m2 hl2 hcm2 lst hlst cn hcn cm2 hcmod2 c hc2 htest
    obtain ⟨m, hl, hnm, _, _, _, hcm, _⟩ := hcorr k m2 hl2
    obtain ⟨cm, hcl, hcnm, _, hccond, _, _, _⟩ := hcorr cn cm2 hcmod2
    rw [hnm] at hlst
    rw [hcnm]
    exact hinv.condDone k m hl (by rw [← hcm]; exact hcm2) lst hlst cn hcn cm hcl
      c (by rw [← hccond]; exact hc2) htest

theorem depsOf_char {st st2 : DepState} (key : String) (f : Mod → Mod)
    (hf : ∀ m, (f m).dependencies = m.dependencies)
    (hm : st2.modules = updateA st.modules key f) :
    ∀ x, depsOf st2 x = depsOf st x := by
  intro x
  unfold depsOf
  rw [hm, lookupA_update_char]
  by_cases hx : x = key
  · rw [if_pos hx]
    cases lookupA st.modules x with
    | none => rfl
    | some m => simp [hf m]
  · rw [if_neg hx]

theorem Inv_finish {st3 : DepState} {name : String} {m3 : Mod} (hinv : Inv st3)
    (hlk3 : lookupA st3.modules name = some m3) (hm3mark : m3.mark = false)
    (hdeps : ∀ d ∈ depsOf st3 name, d ∈ st3.result)
    (hmc3 : m3.conditionalMark = true ∨
      lookupA st3.conditionalModules m3.name = none)
    (hname : m3.name = name) :
    Inv {st3 with
          modules := updateA st3.modules name
            (fun m => {m with mark := true, tmpMark := false}),
          result := name :: st3.result} := by
  have hchar : ∀ k,
      lookupA (updateA st3.modules name
          (fun m => {m with mark := true, tmpMark := false})) k =
        if k = name then (lookupA st3.modules k).map
          (fun m => {m with mark := true, tmpMark := false})
        else lookupA st3.modules k := fun k => lookupA_update_char _ _ _ _
  have hcorr : ∀ k m',
      lookupA (updateA st3.modules name
          (fun m => {m with mark := true, tmpMark := false})) k = some m' →
      ∃ m, lookupA st3.modules k = some m ∧ m'.name = m.name ∧
        m'.condition = m.condition ∧ m'.conditionalMark = m.conditionalMark := by
    intro k m' hl'
    rw [hchar k] at hl'
    by_cases hk : k = name
    · rw [if_pos hk] at hl'
      cases hl : lookupA st3.modules k with
      | none => rw [hl] at hl'; cases hl'
      | some m =>
        rw [hl] at hl'
        injection hl' with hl'
        subst hl'
        exact ⟨m, rfl, rfl, rfl, rfl⟩
    · rw [if_neg hk] at hl'
      exact ⟨m', hl', rfl, rfl, rfl⟩
  have hnotmem : name ∉ st3.result := by
    intro hmem
    have := (hinv.mem_iff name m3 hlk3).mpr hmem
    rw [hm3mark] at this
    cases this
  refine ⟨?_, ?_, ?_, ?_, ?_, ?_, ?_⟩
  · intro k m' hl'
    rw [hchar k] at hl'
    by_cases hk : k = name
    · subst hk
      rw [if_pos rfl, hlk3] at hl'
      injection hl' with hl'
      subst hl'
      simp
    · rw [if_neg hk] at hl'
      rw [hinv.mem_iff k m' hl']
      constructor
      · intro hm
        exact List.mem_cons_of_mem _ hm
      · intro hm
        rcases List.mem_cons.mp hm with heq2 | hm2
        · exact absurd heq2 hk
        · exact hm2
  · exact List.nodup_cons.mpr ⟨hnotmem, hinv.nodup⟩
  · intro x hx
    rcases List.mem_cons.mp hx with rfl | hx2
    · rw [hchar x, if_pos rfl, hlk3]
      rfl
    · rw [hchar x]
      by_cases hk : x = name
      · rw [if_pos hk]
        have hreg := hinv.regd x hx2
        cases hl : lookupA st3.modules x with
        | none => rw [hl] at hreg; simp at hreg
        | some m => rfl
      · rw [if_neg hk]
        exact hinv.regd x hx2
  · have hbase : DFR (depsOf st3) (name :: st3.result) := ⟨hdeps, hinv.dfr⟩
    refine DFR_congr ?_ _ hbase
    intro x
    exact (depsOf_char name (fun m => {m with mark := true, tmpMark := false})
      (fun m => rfl) rfl x).symm
  · intro k m' hl' hm'
    rw [hchar k] at hl'
    by_cases hk : k = name
    · subst hk
      rw [if_pos rfl, hlk3] at hl'
      injection hl' with hl'
      subst hl'
      rfl
    · rw [if_neg hk] at hl'
      exact hinv.disj k m' hl' hm'
  · intro k m' hl' hm'
    rw [hchar k] at hl'
    by_cases hk : k = name
    · subst hk
      rw [if_pos rfl, hlk3] at hl'
      injection hl' with hl'
      subst hl'
      exact hmc3
    · rw [if_neg hk] at hl'
      exact hinv.mc k m' hl' hm'
  · intro k m' hl' hcm' lst hlst cn hcn cm' hcm2 c hc htest
    obtain ⟨m, hl, hnm, _, hcmk⟩ := hcorr k m' hl'
    obtain ⟨cm, hcl, hcnm, hccond, _⟩ := hcorr cn cm' hcm2
    rw [hnm] at hlst
    rw [hcnm]
    exact hinv.condDone k m hl (by rw [← hcmk]; exact hcm') lst hlst cn hcn cm
      hcl c (by rw [← hccond]; exact hc) htest

/-! ## Conditional-module processing -/

theorem condLoop_facts :
    ∀ (l : List String) (st : DepState),
      (∀ p ∈ st.modules, p.2.name = p.1) →
      ((condLoop st l).1.modules = st.modules ∧
          (condLoop st l).1.conditionalModules = st.conditionalModules ∧
          (condLoop st l).1.result = st.result ∧
          ∃ ext, (condLoop st l).1.queue = st.queue ++ ext ∧ ext.Nodup ∧
            ∀ x ∈ ext, x ∉ st.queue ∧ (lookupA st.modules x).isSome = true) ∧
        ((∀ cn ∈ l, ((lookupA st.modules cn).map
            (fun m => m.condition.isSome)).getD false = true) →
          (condLoop st l).2 = none) ∧
        ((condLoop st l).2 = none →
          ∀ cn ∈ l, ∀ cm, lookupA st.modules cn = some cm →
            ∀ c, cm.condition = some c → c.test = true →
            cm.name ∈ (condLoop st l).1.queue) := by
  intro l
  induction l with
  | nil =>
    intro st _
    refine ⟨⟨rfl, rfl, rfl, [], by simp [condLoop], List.nodup_nil, by simp⟩,
      fun _ => rfl, ?_⟩
    intro _ cn hcn
    simp at hcn
  | cons cn0 rest ih =>
    intro st hkeys
    cases hl : lookupA st.modules cn0 with
    | none =>
      refine ⟨⟨?_, ?_, ?_, [], ?_, List.nodup_nil, by simp⟩, ?_, ?_⟩
      · simp [condLoop, hl]
      · simp [condLoop, hl]
      · simp [condLoop, hl]
      · simp [condLoop, hl]
      · intro hconds
        have := hconds cn0 (List.mem_cons_self _ _)
        rw [hl] at this
        simp at this
      · intro hnone
        exfalso
        simp [condLoop, hl] at hnone
    | some r =>
      by_cases hq : r.name ∈ st.queue
      · have heq : condLoop st (cn0 :: rest) = condLoop st rest := by
          simp [condLoop, hl, hq]
        obtain ⟨hframe, hclass, hcomp⟩ := ih st hkeys
        rw [heq]
        refine ⟨hframe, fun hconds => hclass (fun cn hcn => hconds cn
          (List.mem_cons_of_mem _ hcn)), ?_⟩
        intro hnone cn hcn cm hcm c hc htest
        rcases List.mem_cons.mp hcn with rfl | hcn2
        · rw [hl] at hcm
          injection hcm with hcm
          subst hcm
          obtain ⟨ext, hqe, _, _⟩ := hframe.2.2.2
          rw [hqe]
          exact List.mem_append_left _ hq
        · exact hcomp hnone cn hcn2 cm hcm c hc htest
      · cases hcond : r.condition with
        | none =>
          have heq : condLoop st (cn0 :: rest) = (st, some Err.typeErr) := by
            simp [condLoop, hl, hq, hcond]
          rw [heq]
          refine ⟨⟨rfl, rfl, rfl, [], by simp, List.nodup_nil, by simp⟩, ?_, ?_⟩
          · intro hconds
            have := hconds cn0 (List.mem_cons_self _ _)
            rw [hl] at this
            simp [hcond] at this
          · intro hnone
            cases hnone
        | some c0 =>
          cases htest0 : c0.test with
          | false =>
            have heq : condLoop st (cn0 :: rest) = condLoop st rest := by
              simp [condLoop, hl, hq, hcond, htest0]
            obtain ⟨hframe, hclass, hcomp⟩ := ih st hkeys
            rw [heq]
            refine ⟨hframe, fun hconds => hclass (fun cn hcn => hconds cn
              (List.mem_cons_of_mem _ hcn)), ?_⟩
            intro hnone cn hcn cm hcm c hc htest
            rcases List.mem_cons.mp hcn with rfl | hcn2
            · rw [hl] at hcm
              injection hcm with hcm
              subst hcm
              rw [hcond] at hc
              injection hc with hc
              subst hc
              rw [htest0] at htest
              cases htest
            · exact hcomp hnone cn hcn2 cm hcm c hc htest
          | true =>
            have heq : condLoop st (cn0 :: rest) =
                condLoop {st with queue := st.queue ++ [r.name]} rest := by
              simp [condLoop, hl, hq, hcond, htest0]
            have hkeys2 : ∀ p ∈ ({st with queue := st.queue ++ [r.name]} : DepState).modules,
                p.2.name = p.1 := hkeys
            obtain ⟨hframe, hclass, hcomp⟩ :=
              ih {st with queue := st.queue ++ [r.name]} hkeys2
            rw [heq]
            have hrname : (lookupA st.modules r.name).isSome = true := by
              have := hkeys _ (lookupA_mem hl)
              simp at this
              rw [this, hl]
              rfl
            refine ⟨⟨hframe.1, hframe.2.1, hframe.2.2.1, ?_⟩, ?_, ?_⟩
            · obtain ⟨ext, hqe, hnd, hfr⟩ := hframe.2.2.2
              refine ⟨r.name :: ext, ?_, ?_, ?_⟩
              · rw [hqe]
                simp
              · rw [List.nodup_cons]
                refine ⟨?_, hnd⟩
                intro hmem
                exact ((hfr r.name hmem).1 (List.mem_append_right _
                  (List.mem_cons_self _ _)))
              · intro x hx
                rcases List.mem_cons.mp hx with rfl | hx2
                · exact ⟨hq, hrname⟩
                · obtain ⟨hnq, hreg⟩ := hfr x hx2
                  refine ⟨fun hmem => hnq (List.mem_append_left _ hmem), hreg⟩
            · intro hconds
              exact hclass (fun cn hcn => hconds cn (List.mem_cons_of_mem _ hcn))
            · intro hnone cn hcn cm hcm c hc htest
              rcases List.mem_cons.mp hcn with rfl | hcn2
              · rw [hl] at hcm
                injection hcm with hcm
                subst hcm
                obtain ⟨ext, hqe, _, _⟩ := hframe.2.2.2
                rw [hqe]
                simp
              · exact hcomp hnone cn hcn2 cm hcm c hc htest

theorem processCond_spec (st : DepState) (key : String) (e : Mod)
    (hkeys : ∀ p ∈ st.modules, p.2.name = p.1) :
    ∀ st1 err, processConditionalModules st key e = (st1, err) →
      ((st1.modules = st.modules ∨
          (err = none ∧ st1.modules =
            updateA st.modules key (fun m => {m with conditionalMark := true}))) ∧
        st1.conditionalModules = st.conditionalModules ∧
        st1.result = st.result ∧
        ∃ ext, st1.queue = st.queue ++ ext ∧ ext.Nodup ∧
          ∀ x ∈ ext, x ∉ st.queue ∧ (lookupA st.modules x).isSome = true) ∧
      ((∀ q ∈ st.conditionalModules, ∀ cn ∈ q.2,
          ((lookupA st.modules cn).map
            (fun m => m.condition.isSome)).getD false = true) →
        err = none) ∧
      (err = none → e.conditionalMark = false →
        ∀ lst, lookupA st.conditionalModules e.name = some lst →
          st1.modules =
              updateA st.modules key (fun m => {m with conditionalMark := true}) ∧
            ∀ cn ∈ lst, ∀ cm, lookupA st.modules cn = some cm →
              ∀ c, cm.condition = some c → c.test = true → cm.name ∈ st1.queue) ∧
      ((e.conditionalMark = true ∨ lookupA st.conditionalModules e.name = none) →
        st1 = st ∧ err = none) := by
  intro st1 err hout
  cases hidx : lookupA st.conditionalModules e.name with
  | none =>
    simp [processConditionalModules, hidx] at hout
    obtain ⟨h1, h2⟩ := hout
    subst h1
    subst h2
    refine ⟨⟨Or.inl rfl, rfl, rfl, [], by simp, List.nodup_nil, by simp⟩,
      fun _ => rfl, ?_, fun _ => ⟨rfl, rfl⟩⟩
    intro _ _ lst hlst
    cases hlst
  | some lst =>
    cases hcm : e.conditionalMark with
    | true =>
      simp [processConditionalModules, hidx, hcm] at hout
      obtain ⟨h1, h2⟩ := hout
      subst h1
      subst h2
      refine ⟨⟨Or.inl rfl, rfl, rfl, [], by simp, List.nodup_nil, by simp⟩,
        fun _ => rfl, ?_, fun _ => ⟨rfl, rfl⟩⟩
      intro _ hfalse
      exact absurd hfalse (by decide)
    | false =>
      obtain ⟨hframe, hclass, hcomp⟩ := condLoop_facts lst st hkeys
      cases hcl : condLoop st lst with
      | mk stc errc =>
        rw [hcl] at hframe hclass hcomp
        cases errc with
        | some ec =>
          simp [processConditionalModules, hidx, hcm, hcl] at hout
          obtain ⟨h1, h2⟩ := hout
          subst h1
          subst h2
          refine ⟨⟨Or.inl hframe.1, hframe.2.1, hframe.2.2.1, hframe.2.2.2⟩,
            ?_, ?_, ?_⟩
          · intro hconds
            have := hclass (fun cn hcn => hconds (e.name, lst)
              (lookupA_mem hidx) cn hcn)
            simp at this
          · intro hnone
            cases hnone
          · intro hno
            rcases hno with h | h
            · exact absurd h (by decide)
            · exact absurd h (by simp)
        | none =>
          simp [processConditionalModules, hidx, hcm, hcl] at hout
          obtain ⟨h1, h2⟩ := hout
          subst h1
          subst h2
          refine ⟨⟨Or.inr ⟨rfl, by rw [hframe.1]⟩, hframe.2.1, hframe.2.2.1, ?_⟩,
            fun _ => rfl, ?_, ?_⟩
          · exact hframe.2.2.2
          · intro _ _ lst2 hlst2
            injection hlst2 with hlst2
            subst hlst2
            refine ⟨by rw [hframe.1], ?_⟩
            intro cn hcn cm hcmod c hc htest
            exact hcomp rfl cn hcn cm hcmod c hc htest
          · intro hno
            rcases hno with h | h
            · exact absurd h (by decide)
            · exact absurd h (by simp)

/-! ## The dependency loop of `_visit` -/

theorem goDeps_spec (fuel : Nat)
    (hv : ∀ st name, WF st → VisitConcl fuel st name (visit fuel st name)) :
    ∀ (l : List String) (st : DepState), WF st →
      GoConcl fuel st l (goDeps (visit fuel) st l) := by
  intro l
  induction l with
  | nil =>
    intro st hwf
    have heq : goDeps (visit fuel) st [] = (st, none) := rfl
    rw [heq]
    refine ⟨StepRel_refl st, fun _ k => rfl, ?_, fun h => h, ?_, ?_, ?_⟩
    · intro _ d hd
      simp at hd
    · intro _ hc
      cases hc
    · intro _ hc
      cases hc
    · intro _ _ _ _ _
      rfl
  | cons d rest ih =>
    intro st hwf
    by_cases hexp : d = "exports"
    · have heq : goDeps (visit fuel) st (d :: rest) = goDeps (visit fuel) st rest := by
        simp [goDeps, hexp]
      have G := ih st hwf
      rw [heq]
      refine ⟨G.step, G.tmp_preserved, ?_, G.inv, ?_, G.no_fuel, ?_⟩
      · intro herr d2 hd2 hne2
        rcases List.mem_cons.mp hd2 with rfl | hd3
        · exact absurd hexp hne2
        · exact G.all_marked herr d2 hd3 hne2
      · intro hall
        exact G.no_type (fun d2 hd2 hne2 => hall d2 (List.mem_cons_of_mem _ hd2) hne2)
      · intro hacyc hall hht hnt hfuel
        exact G.success hacyc
          (fun d2 hd2 hne2 => hall d2 (List.mem_cons_of_mem _ hd2) hne2)
          (fun d2 hd2 hne2 => hht d2 (List.mem_cons_of_mem _ hd2) hne2)
          (fun d2 hd2 hne2 => hnt d2 (List.mem_cons_of_mem _ hd2) hne2) hfuel
    · cases hvis : visit fuel st d with
      | mk st1 err1 =>
        have V := hv st d hwf
        rw [hvis] at V
        cases err1 with
        | some e1 =>
          have heq : goDeps (visit fuel) st (d :: rest) = (st1, some e1) := by
            simp [goDeps, hexp, hvis]
          rw [heq]
          refine ⟨V.step, ?_, ?_, V.inv, ?_, ?_, ?_⟩
          · intro hc
            cases hc
          · intro hc
            cases hc
          · intro hall hc
            exact V.no_type (hall d (List.mem_cons_self _ _) hexp) hc
          · intro hf hc
            exact V.no_fuel hf hc
          · intro hacyc hall hht hnt hfuel
            have := V.success hacyc (hht d (List.mem_cons_self _ _) hexp)
              (hnt d (List.mem_cons_self _ _) hexp)
              (hall d (List.mem_cons_self _ _) hexp) hfuel
            exact absurd this (by simp)
        | none =>
          have heq : goDeps (visit fuel) st (d :: rest) =
              goDeps (visit fuel) st1 rest := by
            simp [goDeps, hexp, hvis]
          have hwf1 : WF st1 := WF_transport hwf V.step
          have G := ih st1 hwf1
          rw [heq]
          have htmp1 : TmpEq st st1 := V.tmp_preserved rfl
          have hcnt1 : countUnTmp st1 = countUnTmp st :=
            countUnTmp_eq_of_tmpEq hwf.nodupKeys V.step.core htmp1
          refine ⟨StepRel_trans V.step G.step, ?_, ?_, fun h => G.inv (V.inv h),
            ?_, ?_, ?_⟩
          · intro herr k
            exact (G.tmp_preserved herr k).trans (htmp1 k)
          · intro herr d2 hd2 hne2
            rcases List.mem_cons.mp hd2 with rfl | hd3
            · obtain ⟨m2, hm2, hmk⟩ := V.marked rfl
              exact mark_mono_lookup G.step.core hm2 hmk
            · exact G.all_marked herr d2 hd3 hne2
          · intro hall
            refine G.no_type ?_
            intro d2 hd2 hne2
            rw [PW_isSome coreRel_key V.step.core d2]
            exact hall d2 (List.mem_cons_of_mem _ hd2) hne2
          · intro hf
            refine G.no_fuel ?_
            rw [hcnt1]
            exact hf
          · intro hacyc hall hht hnt hfuel
            refine G.success (Acyc_transport hacyc V.step.core) ?_ ?_ ?_ ?_
            · intro d2 hd2 hne2
              rw [PW_isSome coreRel_key V.step.core d2]
              exact hall d2 (List.mem_cons_of_mem _ hd2) hne2
            · intro d2 hd2 hne2
              exact HT_transport V.step.core htmp1 d2
                (hht d2 (List.mem_cons_of_mem _ hd2) hne2)
            · intro d2 hd2 hne2
              exact notTmp_transport htmp1
                (hnt d2 (List.mem_cons_of_mem _ hd2) hne2)
            · rw [hcnt1]
              exact hfuel

/-! ## The main `_visit` specification -/

theorem visit_spec :
    ∀ (fuel : Nat) (st : DepState) (name : String), WF st →
      VisitConcl fuel st name (visit fuel st name) := by
  intro fuel
  induction fuel with
  | zero =>
    intro st name hwf
    refine ⟨StepRel_refl st, ?_, ?_, fun h => h, ?_, ?_, ?_⟩
    · intro hc
      cases hc
    · intro hc
      cases hc
    · intro _ hc
      injection hc with hc
      cases hc
    · intro hf _
      omega
    · intro _ _ _ _ hfuel
      exfalso
      omega
  | succ fuel ih =>
    intro st name hwf
    cases hlk : lookupA st.modules name with
    | none =>
      have heq : visit (Nat.succ fuel) st name = (st, some Err.typeErr) := by
        simp [visit, hlk]
      rw [heq]
      refine ⟨StepRel_refl st, ?_, ?_, fun h => h, ?_, ?_, ?_⟩
      · intro hc
        cases hc
      · intro hc
        cases hc
      · intro hs
        rw [hlk] at hs
        cases hs
      · intro _ hc
        injection hc with hc
        cases hc
      · intro _ _ _ hs _
        rw [hlk] at hs
        cases hs
    | some e =>
      cases htm : e.tmpMark with
      | true =>
        have heq : visit (Nat.succ fuel) st name = (st, some (Err.cycle e.name)) := by
          simp [visit, hlk, htm]
        rw [heq]
        refine ⟨StepRel_refl st, ?_, ?_, fun h => h, ?_, ?_, ?_⟩
        · intro hc
          cases hc
        · intro hc
          cases hc
        · intro _ hc
          injection hc with hc
          cases hc
        · intro _ hc
          injection hc with hc
          cases hc
        · intro _ _ hnt _ _
          have := hnt e hlk
          rw [htm] at this
          cases this
      | false =>
        cases hpc : processConditionalModules st name e with
        | mk st1 err1 =>
          obtain ⟨hframe, hclass, hcomp, hnoop⟩ :=
            processCond_spec st name e hwf.keys st1 err1 hpc
          cases err1 with
          | some e1 =>
            exact absurd (hclass hwf.conds) (by simp)
          | none =>
            have hstep1 : StepRel st st1 := by
              refine ⟨hframe.2.1, ?_, hframe.2.2.2, ⟨[], hframe.2.2.1⟩⟩
              rcases hframe.1 with hm | ⟨_, hm⟩
              · rw [hm]
                exact PW_refl _ coreRel_refl _
              · rw [hm]
                refine PW_updateA coreRel_refl name _ ?_ _
                intro p _
                exact ⟨rfl, rfl, rfl, rfl, fun h => h, fun _ => rfl⟩
            have htmp1 : TmpEq st st1 := by
              intro k
              rcases hframe.1 with hm | ⟨_, hm⟩
              · rw [hm]
              · unfold tmpOfL
                rw [hm, lookupA_update_char]
                by_cases hk : k = name
                · rw [if_pos hk]
                  cases lookupA st.modules k with
                  | none => rfl
                  | some m => rfl
                · rw [if_neg hk]
            have hwf1 : WF st1 := WF_transport hwf hstep1
            have heName : e.name = name := hwf.keys (name, e) (lookupA_mem hlk)
            have hE1 : ∃ e1, lookupA st1.modules name = some e1 ∧
                e1.mark = e.mark ∧ e1.tmpMark = e.tmpMark ∧ e1.name = e.name ∧
                e1.dependencies = e.dependencies ∧ e1.condition = e.condition ∧
                (e1.conditionalMark = true ∨
                  lookupA st.conditionalModules e.name = none) := by
              by_cases hcm0 : e.conditionalMark = true
              · obtain ⟨hst, _⟩ := hnoop (Or.inl hcm0)
                exact ⟨e, by rw [hst]; exact hlk, rfl, rfl, rfl, rfl, rfl,
                  Or.inl hcm0⟩
              · have hcmF : e.conditionalMark = false := by
                  cases hcase : e.conditionalMark with
                  | false => rfl
                  | true => exact absurd hcase hcm0
                cases hidx0 : lookupA st.conditionalModules e.name with
                | none =>
                  obtain ⟨hst, _⟩ := hnoop (Or.inr hidx0)
                  exact ⟨e, by rw [hst]; exact hlk, rfl, rfl, rfl, rfl, rfl,
                    Or.inr rfl⟩
                | some lst =>
                  obtain ⟨hupd, _⟩ := hcomp rfl hcmF lst hidx0
                  refine ⟨{e with conditionalMark := true}, ?_, rfl, rfl, rfl,
                    rfl, rfl, Or.inl rfl⟩
                  rw [hupd, lookupA_update_char, if_pos rfl, hlk]
                  rfl
            obtain ⟨e1, hlk1, he1mk, he1tm, he1nm, he1dep, he1cond, he1mc⟩ := hE1
            have hinv1 : Inv st → Inv st1 := by
              intro hinv
              by_cases hcm0 : e.conditionalMark = true
              · obtain ⟨hst, _⟩ := hnoop (Or.inl hcm0)
                rw [hst]
                exact hinv
              · have hcmF : e.conditionalMark = false := by
                  cases hcase : e.conditionalMark with
                  | false => rfl
                  | true => exact absurd hcase hcm0
                cases hidx0 : lookupA st.conditionalModules e.name with
                | none =>
                  obtain ⟨hst, _⟩ := hnoop (Or.inr hidx0)
                  rw [hst]
                  exact hinv
                | some lst =>
                  obtain ⟨hupd, hcompl⟩ := hcomp rfl hcmF lst hidx0
                  have hqm : ∀ x ∈ st.queue, x ∈ st1.queue := by
                    obtain ⟨ext, hqe, _, _⟩ := hframe.2.2.2
                    intro x hx
                    rw [hqe]
                    exact List.mem_append_left _ hx
                  refine Inv_condMark_update hinv hupd hframe.2.1 hframe.2.2.1
                    hqm ?_
                  intro m hm lst2 hlst2 cn hcn cm hcmod c hc htest
                  rw [hlk] at hm
                  injection hm with hm
                  subst hm
                  rw [hidx0] at hlst2
                  injection hlst2 with hlst2
                  subst hlst2
                  exact hcompl cn hcn cm hcmod c hc htest
            cases hmk : e.mark with
            | true =>
              have heq : visit (Nat.succ fuel) st name = (st1, none) := by
                simp [visit, hlk, htm, hpc, hmk]
              rw [heq]
              refine ⟨hstep1, fun _ => htmp1, ?_, fun h => hinv1 h, ?_, ?_, ?_⟩
              · intro _
                exact ⟨e1, hlk1, by rw [he1mk, hmk]⟩
              · intro _ hc
                cases hc
              · intro _ hc
                cases hc
              · intro _ _ _ _ _
                rfl
            | false =>
              have he1mkF : e1.mark = false := by rw [he1mk, hmk]
              have he1tmF : e1.tmpMark = false := by rw [he1tm, htm]
              cases hgo : goDeps (visit fuel) (setTmpAt st1 name)
                  e.dependencies with
              | mk st3 err3 =>
                have hstep2 : StepRel st1 (setTmpAt st1 name) := by
                  refine ⟨rfl, ?_, ⟨[], by simp [setTmpAt]⟩, ⟨[], rfl⟩⟩
                  show PW coreRel st1.modules
                    (updateA st1.modules name (fun m => {m with tmpMark := true}))
                  refine PW_updateA coreRel_refl name _ ?_ _
                  intro p _
                  exact ⟨rfl, rfl, rfl, rfl, fun h => h, fun h => h⟩
                have hwf2 := WF_transport hwf1 hstep2
                have G := goDeps_spec fuel ih e.dependencies _ hwf2
                rw [hgo] at G
                have hlk2 : lookupA (setTmpAt st1 name).modules name =
                    some {e1 with tmpMark := true} := by
                  show lookupA (updateA st1.modules name
                    (fun m => {m with tmpMark := true})) name = _
                  rw [lookupA_update_char, if_pos rfl, hlk1]
                  rfl
                have hcnt1 : countUnTmp st1 = countUnTmp st :=
                  countUnTmp_eq_of_tmpEq hwf.nodupKeys hstep1.core htmp1
                have hcnt2 : countUnTmp (setTmpAt st1 name) + 1 =
                    countUnTmp st1 := countUnTmp_set_tmp hlk1 he1tmF
                have hdepsreg : ∀ d ∈ e.dependencies, d ≠ "exports" →
                    (lookupA st.modules d).isSome = true :=
                  hwf.depsReg (name, e) (lookupA_mem hlk)
                have hdreg2 : ∀ d ∈ e.dependencies, d ≠ "exports" →
                    (lookupA (setTmpAt st1 name).modules d).isSome = true := by
                  intro d hd hne
                  rw [PW_isSome coreRel_key hstep2.core d,
                    PW_isSome coreRel_key hstep1.core d]
                  exact hdepsreg d hd hne
                have htmp2chr : ∀ k, k ≠ name →
                    tmpOfL (setTmpAt st1 name).modules k =
                      tmpOfL st1.modules k := by
                  intro k hk
                  show tmpOfL (updateA st1.modules name
                    (fun m => {m with tmpMark := true})) k = _
                  unfold tmpOfL
                  rw [lookupA_update_char, if_neg hk]
                have hdeq2 : ∀ x, depsOf (setTmpAt st1 name) x = depsOf st x := by
                  intro x
                  rw [depsOf_char name (fun m => {m with tmpMark := true})
                    (fun m => rfl) rfl x]
                  exact depsOf_stable hstep1.core x
                have hedge : ∀ d ∈ e.dependencies, d ≠ "exports" →
                    edgeOf st name d := by
                  intro d hd hne
                  unfold edgeOf depsOf
                  rw [hlk]
                  dsimp only
                  refine List.mem_filter.mpr ⟨hd, ?_⟩
                  simp [hne]
                have hsuccArgs : Acyc st → HT st name →
                    (Acyc (setTmpAt st1 name) ∧
                      (∀ d ∈ e.dependencies, d ≠ "exports" →
                        HT (setTmpAt st1 name) d) ∧
                      (∀ d ∈ e.dependencies, d ≠ "exports" →
                        ∀ m, lookupA (setTmpAt st1 name).modules d = some m →
                          m.tmpMark = false)) := by
                  intro hacyc hht
                  refine ⟨Acyc_transport (Acyc_transport hacyc hstep1.core)
                    hstep2.core, ?_, ?_⟩
                  · intro d hd hne k m2 hl2 htm2
                    have hmono : ∀ u v, edgeOf st u v →
                        edgeOf (setTmpAt st1 name) u v := by
                      intro u v huv
                      unfold edgeOf at huv ⊢
                      rw [hdeq2 u]
                      exact huv
                    by_cases hk : k = name
                    · subst hk
                      exact Relation.TransGen.single (hmono _ _ (hedge d hd hne))
                    · have htk : tmpOfL st.modules k = true := by
                        rw [← htmp1 k, ← htmp2chr k hk, tmpOfL_lookup hl2]
                        exact htm2
                      cases hlst : lookupA st.modules k with
                      | none => rw [tmpOfL_none hlst] at htk; cases htk
                      | some m =>
                        rw [tmpOfL_lookup hlst] at htk
                        have htg := hht k m hlst htk
                        exact Relation.TransGen.mono hmono
                          (Relation.TransGen.tail htg (hedge d hd hne))
                  · intro d hd hne m hl2
                    by_cases hk : d = name
                    · exfalso
                      subst hk
                      exact hacyc d (Relation.TransGen.single (hedge d hd hne))
                    · have htd : tmpOfL st.modules d = false := by
                        cases hlst : lookupA st.modules d with
                        | none => exact tmpOfL_none hlst
                        | some md =>
                          rw [tmpOfL_lookup hlst]
                          cases hcase : md.tmpMark with
                          | false => rfl
                          | true =>
                            exfalso
                            have htg := hht d md hlst hcase
                            exact hacyc d
                              (Relation.TransGen.tail htg (hedge d hd hne))
                      rw [← tmpOfL_lookup hl2, htmp2chr d hk, htmp1 d]
                      exact htd
                cases err3 with
                | some e3 =>
                  have heq : visit (Nat.succ fuel) st name = (st3, some e3) := by
                    simp [visit, hlk, htm, hpc, hmk, hgo]
                  rw [heq]
                  refine ⟨StepRel_trans (StepRel_trans hstep1 hstep2) G.step,
                    ?_, ?_, ?_, ?_, ?_, ?_⟩
                  · intro hc
                    cases hc
                  · intro hc
                    cases hc
                  · intro h
                    exact G.inv (Inv_setTmp (hinv1 h) hlk1 he1mkF)
                  · intro _ hc
                    exact G.no_type hdreg2 hc
                  · intro hf hc
                    refine G.no_fuel ?_ hc
                    omega
                  · intro hacyc hht hnt _ hfuel
                    obtain ⟨ha2, hht2, hnt2⟩ := hsuccArgs hacyc hht
                    have := G.success ha2 hdreg2 hht2 hnt2 (by omega)
                    exact absurd this (by simp)
                | none =>
                  have heq : visit (Nat.succ fuel) st name =
                      (finishVisit st3 name e.name, none) := by
                    simp [visit, hlk, htm, hpc, hmk, hgo]
                  rw [heName] at heq
                  rw [heq]
                  have hm3x := PW_lookup coreRel_key _ _ G.step.core _ _ hlk2
                  obtain ⟨m3, hm3lk, hm3rel⟩ := hm3x
                  have hm3nm : m3.name = e.name := by
                    have h2 : m3.name = ({e1 with tmpMark := true} : Mod).name :=
                      hm3rel.2.1
                    rw [h2]
                    exact he1nm
                  have hm3dep : m3.dependencies = e.dependencies := by
                    have h2 : m3.dependencies =
                        ({e1 with tmpMark := true} : Mod).dependencies :=
                      hm3rel.2.2.1
                    rw [h2]
                    exact he1dep
                  have hm3tm : m3.tmpMark = true := by
                    have h2 := G.tmp_preserved rfl name
                    rw [tmpOfL_lookup hm3lk, tmpOfL_lookup hlk2] at h2
                    exact h2
                  have hm3cmono : e1.conditionalMark = true →
                      m3.conditionalMark = true := by
                    intro h1
                    exact hm3rel.2.2.2.2.2 h1
                  have hchar3 : ∀ k,
                      lookupA (updateA st3.modules name
                        (fun m => {m with mark := true, tmpMark := false})) k =
                      if k = name then (lookupA st3.modules k).map
                        (fun m => {m with mark := true, tmpMark := false})
                      else lookupA st3.modules k :=
                    fun k => lookupA_update_char _ _ _ _
                  refine ⟨?_, ?_, ?_, ?_, ?_, ?_, ?_⟩
                  · refine StepRel_trans (StepRel_trans
                      (StepRel_trans hstep1 hstep2) G.step) ?_
                    refine ⟨rfl, ?_, ⟨[], by simp [finishVisit]⟩, ⟨[name], rfl⟩⟩
                    show PW coreRel st3.modules (updateA st3.modules name
                      (fun m => {m with mark := true, tmpMark := false}))
                    refine PW_updateA coreRel_refl name _ ?_ _
                    intro p _
                    exact ⟨rfl, rfl, rfl, rfl, fun _ => rfl, fun h => h⟩
                  · intro _ k
                    show tmpOfL (updateA st3.modules name
                      (fun m => {m with mark := true, tmpMark := false})) k = _
                    by_cases hk : k = name
                    · subst hk
                      unfold tmpOfL
                      rw [hchar3 k, if_pos rfl, hm3lk, hlk]
                      simp [htm]
                    · unfold tmpOfL
                      rw [hchar3 k, if_neg hk]
                      have h1 := G.tmp_preserved rfl k
                      have h2 := htmp2chr k hk
                      have h3 := htmp1 k
                      unfold tmpOfL at h1 h2 h3
                      rw [h1, h2, h3]
                  · intro _
                    refine ⟨{m3 with mark := true, tmpMark := false}, ?_, rfl⟩
                    show lookupA (updateA st3.modules name
                      (fun m => {m with mark := true, tmpMark := false}))
                        name = _
                    rw [hchar3 name, if_pos rfl, hm3lk]
                    rfl
                  · intro h
                    have hinv3 : Inv st3 :=
                      G.inv (Inv_setTmp (hinv1 h) hlk1 he1mkF)
                    have hm3mk : m3.mark = false := by
                      cases hcase : m3.mark with
                      | false => rfl
                      | true =>
                        have h2 := hinv3.disj name m3 hm3lk hcase
                        rw [hm3tm] at h2
                        cases h2
                    have hdeps3 : ∀ d ∈ depsOf st3 name, d ∈ st3.result := by
                      intro d hd
                      unfold depsOf at hd
                      rw [hm3lk] at hd
                      dsimp only at hd
                      rw [hm3dep] at hd
                      obtain ⟨hdm, hdb⟩ := List.mem_filter.mp hd
                      have hne : d ≠ "exports" := by
                        intro hc
                        rw [hc] at hdb
                        simp at hdb
                      obtain ⟨m2, hm2, hmk2⟩ := G.all_marked rfl d hdm hne
                      exact (hinv3.mem_iff d m2 hm2).mp hmk2
                    have hmc3 : m3.conditionalMark = true ∨
                        lookupA st3.conditionalModules m3.name = none := by
                      rcases he1mc with hcm1 | hidxn
                      · exact Or.inl (hm3cmono hcm1)
                      · right
                        rw [hm3nm, G.step.condIdx, hstep2.condIdx,
                          hstep1.condIdx]
                        exact hidxn
                    exact Inv_finish hinv3 hm3lk hm3mk hdeps3 hmc3
                      (hm3nm.trans heName)
                  · intro _ hc
                    cases hc
                  · intro _ hc
                    cases hc
                  · intro _ _ _ _ _
                    rfl

/-! ## The outer queue loop -/

theorem take_append_of_le {α : Type} :
    ∀ (l1 l2 : List α) (n : Nat), n ≤ l1.length →
      (l1 ++ l2).take n = l1.take n := by
  intro l1
  induction l1 with
  | nil =>
    intro l2 n h
    simp at h
    subst h
    simp
  | cons a l ih =>
    intro l2 n h
    cases n with
    | zero => simp
    | succ n =>
      simp only [List.cons_append, List.take_succ_cons]
      rw [ih l2 n (by simpa using h)]

theorem QInv_len {seeds : List String} {st : DepState} (hq : QInv seeds st) :
    st.queue.length ≤ seeds.length + st.modules.length := by
  obtain ⟨ext, hqe, hnd, hreg⟩ := hq
  have hsub : ext ⊆ st.modules.map Prod.fst := by
    intro x hx
    by_contra hmem
    rw [← lookupA_eq_none_iff] at hmem
    have hr := hreg x hx
    rw [hmem] at hr
    cases hr
  have hsp := List.subperm_of_subset hnd hsub
  have hlen := hsp.length_le
  rw [List.length_map] at hlen
  rw [hqe, List.length_append]
  omega

theorem QInv_step {seeds : List String} {st st2 : DepState}
    (hq : QInv seeds st) (h : StepRel st st2) : QInv seeds st2 := by
  obtain ⟨ext, hqe, hnd, hreg⟩ := hq
  obtain ⟨extv, hqe2, hndv, hfrv⟩ := h.queue
  refine ⟨ext ++ extv, by rw [hqe2, hqe, List.append_assoc], ?_, ?_⟩
  · rw [List.nodup_append]
    refine ⟨hnd, hndv, ?_⟩
    intro x hx1 hx2
    exact (hfrv x hx2).1 (by rw [hqe]; exact List.mem_append_right _ hx1)
  · intro x hx
    rw [PW_isSome coreRel_key h.core x]
    rcases List.mem_append.mp hx with hx | hx
    · exact hreg x hx
    · exact (hfrv x hx).2

theorem resolveLoop_spec (vf : Nat) :
    ∀ (fuel : Nat) (seeds : List String) (st : DepState) (t : Nat), WF st →
      QInv seeds st →
      (∀ x ∈ seeds, (lookupA st.modules x).isSome = true) →
      st.modules.length + 1 ≤ vf →
      seeds.length + st.modules.length + 1 ≤ fuel + t →
      LoopConcl st t (resolveLoop vf fuel st t) := by
  intro fuel
  induction fuel with
  | zero =>
    intro seeds st t hwf hq hseeds hvf hfuel
    have hlen := QInv_len hq
    have hnt : ¬ t < st.queue.length := by omega
    have heq : resolveLoop vf 0 st t = (st, none) := by
      rw [resolveLoop]
      rw [dif_neg hnt]
    rw [heq]
    refine ⟨StepRel_refl st, fun h => h, Or.inl rfl, ?_, fun _ _ => rfl⟩
    intro _ htake x hx
    have hta : st.queue.take t = st.queue := List.take_of_length_le (by omega)
    rw [hta] at htake
    exact htake x hx
  | succ fuel ihL =>
    intro seeds st t hwf hq hseeds hvf hfuel
    by_cases ht : t < st.queue.length
    · have hqel : st.queue.get ⟨t, ht⟩ ∈ st.queue := List.get_mem st.queue t ht
      have hreg : (lookupA st.modules (st.queue.get ⟨t, ht⟩)).isSome = true := by
        obtain ⟨ext, hqe, hnd, hext⟩ := hq
        have hx : st.queue.get ⟨t, ht⟩ ∈ seeds ++ ext := by
          rw [← hqe]
          exact hqel
        rcases List.mem_append.mp hx with hx | hx
        · exact hseeds _ hx
        · exact hext _ hx
      cases hlke : lookupA st.modules (st.queue.get ⟨t, ht⟩) with
      | none =>
        rw [hlke] at hreg
        cases hreg
      | some eM =>
        cases hemk : eM.mark with
        | true =>
          have heq : resolveLoop vf (Nat.succ fuel) st t =
              resolveLoop vf fuel st (t + 1) := by
            rw [resolveLoop]
            rw [dif_pos ht]
            have hlke2 : lookupA st.modules st.queue[t] = some eM := hlke
            simp [hlke2, hemk]
          rw [heq]
          have R := ihL seeds st (t + 1) hwf hq hseeds hvf (by omega)
          refine ⟨R.step, R.inv, R.err_class, ?_, R.success⟩
          intro herr htake
          refine R.all_marked herr ?_
          intro x hx
          rw [List.take_succ, List.getElem?_eq_getElem ht] at hx
          simp only [Option.toList] at hx
          rcases List.mem_append.mp hx with hx | hx
          · exact htake x hx
          · have hxe : x = st.queue.get ⟨t, ht⟩ := by simpa using hx
            rw [hxe]
            exact ⟨eM, hlke, hemk⟩
        | false =>
          cases hvis : visit vf st (st.queue.get ⟨t, ht⟩) with
          | mk stv errv =>
            have V := visit_spec vf st (st.queue.get ⟨t, ht⟩) hwf
            rw [hvis] at V
            cases errv with
            | some ev =>
              have heq : resolveLoop vf (Nat.succ fuel) st t = (stv, some ev) := by
                rw [resolveLoop]
                rw [dif_pos ht]
                have hlke2 : lookupA st.modules st.queue[t] = some eM := hlke
                have hvis2 : visit vf st st.queue[t] = (stv, some ev) := hvis
                simp [hlke2, hemk, hvis2]
              rw [heq]
              refine ⟨V.step, V.inv, ?_, ?_, ?_⟩
              · cases ev with
                | cycle n => exact Or.inr ⟨n, rfl⟩
                | typeErr => exact absurd rfl (V.no_type hreg)
                | fuel =>
                  exfalso
                  have hcu := countUnTmp_le st
                  exact (V.no_fuel (by omega)) rfl
              · intro herr
                cases herr
              · intro hacyc hnt
                exfalso
                have hht : HT st (st.queue.get ⟨t, ht⟩) := by
                  intro k m hl htm
                  have h0 := hnt k m hl
                  rw [h0] at htm
                  cases htm
                have hcu := countUnTmp_le st
                have hs := V.success hacyc hht (fun m hm => hnt _ m hm) hreg
                  (by omega)
                cases hs
            | none =>
              have heq : resolveLoop vf (Nat.succ fuel) st t =
                  resolveLoop vf fuel stv (t + 1) := by
                rw [resolveLoop]
                rw [dif_pos ht]
                have hlke2 : lookupA st.modules st.queue[t] = some eM := hlke
                have hvis2 : visit vf st st.queue[t] = (stv, none) := hvis
                simp [hlke2, hemk, hvis2]
              rw [heq]
              have hwf2 := WF_transport hwf V.step
              have hq2 : QInv seeds stv := QInv_step hq V.step
              have hseeds2 : ∀ x ∈ seeds, (lookupA stv.modules x).isSome = true := by
                intro x hx
                rw [PW_isSome coreRel_key V.step.core x]
                exact hseeds x hx
              have hlen2 : st.modules.length = stv.modules.length :=
                PW_length _ _ V.step.core
              have R := ihL seeds stv (t + 1) hwf2 hq2 hseeds2 (by omega)
                (by omega)
              refine ⟨StepRel_trans V.step R.step, fun h => R.inv (V.inv h),
                R.err_class, ?_, ?_⟩
              · intro herr htake
                refine R.all_marked herr ?_
                intro x hx
                obtain ⟨extv, hqe2, hndv, hfrv⟩ := V.step.queue
                rw [hqe2] at hx
                rw [take_append_of_le _ _ _ (by omega)] at hx
                rw [List.take_succ, List.getElem?_eq_getElem ht] at hx
                simp only [Option.toList] at hx
                rcases List.mem_append.mp hx with hx | hx
                · obtain ⟨m, hm, hmk⟩ := htake x hx
                  exact mark_mono_lookup V.step.core hm hmk
                · have hxe : x = st.queue.get ⟨t, ht⟩ := by simpa using hx
                  rw [hxe]
                  exact V.marked rfl
              · intro hacyc hnt
                exact R.success (Acyc_transport hacyc V.step.core)
                  (NoTmp_transport (V.tmp_preserved rfl) hnt)
    · have heq : resolveLoop vf (Nat.succ fuel) st t = (st, none) := by
        rw [resolveLoop]
        rw [dif_neg ht]
      rw [heq]
      refine ⟨StepRel_refl st, fun h => h, Or.inl rfl, ?_, fun _ _ => rfl⟩
      intro _ htake x hx
      have hta : st.queue.take t = st.queue := List.take_of_length_le (by omega)
      rw [hta] at htake
      exact htake x hx

/-! ## Assembling a full resolution pass -/

theorem cleanup_cleanFlags (st : DepState) : CleanFlags (cleanup st) := by
  intro p hp
  simp only [cleanup, List.mem_map] at hp
  obtain ⟨q, hq, hpe⟩ := hp
  rw [← hpe]
  exact ⟨rfl, rfl, rfl⟩

theorem Inv_clean (st : DepState) (hc : CleanFlags st) (hr : st.result = []) :
    Inv st := by
  have hmk : ∀ k m, lookupA st.modules k = some m → m.mark = false :=
    fun k m hl => (hc (k, m) (lookupA_mem hl)).1
  refine ⟨?_, ?_, ?_, ?_, ?_, ?_, ?_⟩
  · intro k m hl
    rw [hmk k m hl, hr]
    simp
  · rw [hr]
    exact List.nodup_nil
  · intro x hx
    rw [hr] at hx
    cases hx
  · rw [hr]
    trivial
  · intro k m hl hm
    rw [hmk k m hl] at hm
    cases hm
  · intro k m hl hm
    rw [hmk k m hl] at hm
    cases hm
  · intro k m hl hm
    have := (hc (k, m) (lookupA_mem hl)).2.2
    rw [this] at hm
    cases hm

theorem rank_acyc (st : DepState) (rk : String → Nat)
    (h : ∀ p ∈ st.modules, ∀ d ∈ p.2.dependencies, d ≠ "exports" →
      rk d < rk p.1) : Acyc st := by
  have hedge : ∀ a b, edgeOf st a b → rk b < rk a := by
    intro a b hab
    unfold edgeOf depsOf at hab
    cases hl : lookupA st.modules a with
    | none =>
      rw [hl] at hab
      simp at hab
    | some m =>
      rw [hl] at hab
      simp only [List.mem_filter] at hab
      refine h (a, m) (lookupA_mem hl) b hab.1 ?_
      simpa using hab.2
  have hlt : ∀ a b, Relation.TransGen (edgeOf st) a b → rk b < rk a := by
    intro a b htg
    induction htg with
    | single h1 => exact hedge _ _ h1
    | tail h1 h2 ih => exact lt_trans (hedge _ _ h2) ih
  intro n hn
  exact absurd (hlt n n hn) (lt_irrefl _)

theorem DFR_mem_closed {g : String → List String} :
    ∀ r, DFR g r → ∀ x ∈ r, ∀ d ∈ g x, d ∈ r := by
  intro r
  induction r with
  | nil =>
    intro _ x hx
    cases hx
  | cons y rest ih =>
    intro h x hx d hd
    rcases List.mem_cons.mp hx with rfl | hx2
    · exact List.mem_cons_of_mem _ (h.1 d hd)
    · exact List.mem_cons_of_mem _ (ih h.2 x hx2 d hd)

theorem map_ext_mem {α β : Type} (f g : α → β) :
    ∀ l : List α, (∀ a ∈ l, f a = g a) → l.map f = l.map g := by
  intro l
  induction l with
  | nil =>
    intro _
    rfl
  | cons a l2 ih =>
    intro h
    simp only [List.map_cons]
    rw [h a (List.mem_cons_self _ _), ih (fun b hb => h b (List.mem_cons_of_mem _ hb))]

theorem resolve_pass (st : DepState) (names : List String)
    (hwf : WF st) (hclean : CleanState st)
    (hnames : ∀ x ∈ names, (lookupA st.modules x).isSome = true) :
    Inv {st with queue := names} ∧
      LoopConcl {st with queue := names} 0
        (resolveLoop (st.modules.length + 1)
          (names.length + st.modules.length + 1) {st with queue := names} 0) := by
  have hwf0 : WF {st with queue := names} :=
    ⟨hwf.nodupKeys, hwf.keys, hwf.depsReg, hwf.conds⟩
  have hq0 : QInv names {st with queue := names} :=
    ⟨[], (List.append_nil _).symm, List.nodup_nil, by simp⟩
  have hinv0 : Inv {st with queue := names} :=
    Inv_clean {st with queue := names} hclean.1 hclean.2
  refine ⟨hinv0, ?_⟩
  exact resolveLoop_spec (st.modules.length + 1)
    (names.length + st.modules.length + 1) names {st with queue := names} 0
    hwf0 hq0 hnames (Nat.le_refl _) (Nat.le_refl _)

theorem resolve_success_facts (st : DepState) (names : List String)
    (hwf : WF st) (hclean : CleanState st) (hacyc : Acyc st)
    (hnames : ∀ x ∈ names, (lookupA st.modules x).isSome = true) :
    ∃ st1,
      resolveDependencies st names = (Except.ok st1.result.reverse, cleanup st1) ∧
        st1.result.Nodup ∧ DFR (depsOf st) st1.result ∧
        (∀ x ∈ names, x ∈ st1.result) ∧ (∀ q ∈ st1.queue, q ∈ st1.result) ∧
        Inv st1 ∧ PW coreRel st.modules st1.modules ∧
        st1.conditionalModules = st.conditionalModules := by
  obtain ⟨hinv0, L⟩ := resolve_pass st names hwf hclean hnames
  cases hrl : resolveLoop (st.modules.length + 1)
      (names.length + st.modules.length + 1) {st with queue := names} 0 with
  | mk st1 res =>
    rw [hrl] at L
    have hacyc0 : Acyc {st with queue := names} := hacyc
    have hnt0 : NoTmp {st with queue := names} := by
      intro k m hl
      exact (hclean.1 (k, m) (lookupA_mem hl)).2.1
    have hres : res = none := L.success hacyc0 hnt0
    subst hres
    have hinv1 : Inv st1 := L.inv hinv0
    have hdeq : ∀ x, depsOf st1 x = depsOf st x :=
      fun x => depsOf_stable L.step.core x
    have hqm : ∀ x ∈ st1.queue,
        ∃ m2, lookupA st1.modules x = some m2 ∧ m2.mark = true := by
      refine L.all_marked rfl ?_
      intro x hx
      simp at hx
    have hqres : ∀ q ∈ st1.queue, q ∈ st1.result := by
      intro q hq
      obtain ⟨m2, hm2, hmk⟩ := hqm q hq
      exact (hinv1.mem_iff q m2 hm2).mp hmk
    have hseedq : ∀ x ∈ names, x ∈ st1.queue := by
      intro x hx
      obtain ⟨ext, hqe, _, _⟩ := L.step.queue
      rw [hqe]
      exact List.mem_append_left _ hx
    refine ⟨st1, ?_, hinv1.nodup, DFR_congr hdeq _ hinv1.dfr,
      fun x hx => hqres x (hseedq x hx), hqres, hinv1, L.step.core,
      L.step.condIdx⟩
    simp [resolveDependencies, hrl]

theorem resolve_cycle_fails (st : DepState) (names : List String)
    (hwf : WF st) (hclean : CleanState st)
    (hnames : ∀ x ∈ names, (lookupA st.modules x).isSome = true)
    (x : String) (hreach : ReachableFrom st names x)
    (hcyc : Relation.TransGen (edgeOf st) x x) :
    ∃ n, (resolveDependencies st names).1 = Except.error (Err.cycle n) := by
  obtain ⟨hinv0, L⟩ := resolve_pass st names hwf hclean hnames
  cases hrl : resolveLoop (st.modules.length + 1)
      (names.length + st.modules.length + 1) {st with queue := names} 0 with
  | mk st1 res =>
    rw [hrl] at L
    cases res with
    | none =>
      exfalso
      have hinv1 : Inv st1 := L.inv hinv0
      have hdeq : ∀ y, depsOf st1 y = depsOf st y :=
        fun y => depsOf_stable L.step.core y
      have hdfr : DFR (depsOf st) st1.result := DFR_congr hdeq _ hinv1.dfr
      have hqm : ∀ y ∈ st1.queue,
          ∃ m2, lookupA st1.modules y = some m2 ∧ m2.mark = true := by
        refine L.all_marked rfl ?_
        intro y hy
        simp at hy
      have hqres : ∀ q ∈ st1.queue, q ∈ st1.result := by
        intro q hq
        obtain ⟨m2, hm2, hmk⟩ := hqm q hq
        exact (hinv1.mem_iff q m2 hm2).mp hmk
      obtain ⟨s, hs, hrt⟩ := hreach
      have hsres : s ∈ st1.result := by
        refine hqres s ?_
        obtain ⟨ext, hqe, _, _⟩ := L.step.queue
        rw [hqe]
        exact List.mem_append_left _ hs
      have hx1 : x ∈ st1.result := by
        refine reach_marked ?_ hrt hsres
        intro u v hu huv
        exact DFR_mem_closed _ hdfr u hu v huv
      exact DFR_no_cycle hdfr hinv1.nodup hx1 hcyc
    | some e =>
      rcases L.err_class with h | ⟨n, hn⟩
      · cases h
      · refine ⟨n, ?_⟩
        have he : e = Err.cycle n := by
          injection hn
        subst he
        simp [resolveDependencies, hrl]

theorem resolveDependencies_flags_reset (st : DepState) (names : List String) :
    CleanFlags (resolveDependencies st names).2 ∧
      (resolveDependencies st names).2.result = [] ∧
      (resolveDependencies st names).2.queue = [] := by
  cases hrl : resolveLoop (st.modules.length + 1)
      (names.length + st.modules.length + 1) {st with queue := names} 0 with
  | mk st1 res =>
    cases res with
    | none =>
      have he : (resolveDependencies st names).2 = cleanup st1 := by
        simp [resolveDependencies, hrl]
      rw [he]
      exact ⟨cleanup_cleanFlags st1, rfl, rfl⟩
    | some e =>
      have he : (resolveDependencies st names).2 = cleanup st1 := by
        simp [resolveDependencies, hrl]
      rw [he]
      exact ⟨cleanup_cleanFlags st1, rfl, rfl⟩

/-- C1: for every well-formed, clean, acyclic configuration and every request
of registered names, `DependencyBuilder.resolveDependencies` returns an
ordering that is dependency-first (every non-`"exports"` dependency of an
output module appears strictly earlier), free of duplicates, and containing
every module reachable from the request along dependency edges. -/
theorem resolveDependencies_acyclic_correct (st : DepState) (names : List String)
    (hwf : WF st) (hclean : CleanState st) (hacyc : Acyc st)
    (hnames : ∀ x ∈ names, (lookupA st.modules x).isSome = true) :
    ∃ out, (resolveDependencies st names).1 = Except.ok out ∧
      out.Nodup ∧ DepFirst st out ∧
      ∀ m, ReachableFrom st names m → m ∈ out := by
  obtain ⟨st1, heq, hnd, hdfr, hseed, hqres, hinv1, hpw, hcidx⟩ :=
    resolve_success_facts st names hwf hclean hacyc hnames
  refine ⟨st1.result.reverse, by rw [heq], by simpa using hnd, ?_, ?_⟩
  · intro pre y post hsplit d hd
    exact DFR_reverse_split hdfr hsplit d hd
  · intro m hm
    obtain ⟨s, hs, hrt⟩ := hm
    rw [List.mem_reverse]
    refine reach_marked ?_ hrt (hseed s hs)
    intro u v hu huv
    exact DFR_mem_closed _ hdfr u hu v huv

/-- Closed instance of the C1 statement on the two-module configuration
`a → b`. -/
theorem resolveDependencies_acyclic_correct_witness :
    (WF wAcy ∧ CleanState wAcy ∧ Acyc wAcy ∧
        ∀ x ∈ ["a"], (lookupA wAcy.modules x).isSome = true) ∧
      ∃ out, (resolveDependencies wAcy ["a"]).1 = Except.ok out ∧
        out.Nodup ∧ DepFirst wAcy out ∧
        ∀ m, ReachableFrom wAcy ["a"] m → m ∈ out := by
  have hwf : WF wAcy := ⟨by decide, by decide, by decide, by decide⟩
  have hcf : ∀ p ∈ wAcy.modules,
      p.2.mark = false ∧ p.2.tmpMark = false ∧ p.2.conditionalMark = false := by
    decide
  have hclean : CleanState wAcy := ⟨hcf, rfl⟩
  have hacyc : Acyc wAcy :=
    rank_acyc wAcy (fun s => if s = "a" then 1 else 0) (by decide)
  exact ⟨⟨hwf, hclean, hacyc, by decide⟩,
    resolveDependencies_acyclic_correct wAcy ["a"] hwf hclean hacyc (by decide)⟩

/-- C2: for every well-formed, clean configuration with a dependency cycle
reachable from the request, `resolveDependencies` fails with a cycle error
naming a module; and after every call on any state whatsoever the `finally`
cleanup leaves `mark`, `tmpMark` and `conditionalMark` of every registry
descriptor false and the queue and result empty. -/
theorem resolveDependencies_cycle_error (st : DepState) (names : List String)
    (hwf : WF st) (hclean : CleanState st)
    (hnames : ∀ x ∈ names, (lookupA st.modules x).isSome = true)
    (x : String) (hreach : ReachableFrom st names x)
    (hcyc : Relation.TransGen (edgeOf st) x x) :
    (∃ n, (resolveDependencies st names).1 = Except.error (Err.cycle n)) ∧
      ∀ (st2 : DepState) (names2 : List String),
        CleanFlags (resolveDependencies st2 names2).2 ∧
          (resolveDependencies st2 names2).2.result = [] ∧
          (resolveDependencies st2 names2).2.queue = [] :=
  ⟨resolve_cycle_fails st names hwf hclean hnames x hreach hcyc,
    fun st2 names2 => resolveDependencies_flags_reset st2 names2⟩

/-- Closed instance of the C2 statement on the two-module cycle `a ↔ b`. -/
theorem resolveDependencies_cycle_error_witness :
    (WF wCyc ∧ CleanState wCyc ∧ ReachableFrom wCyc ["a"] "a" ∧
        Relation.TransGen (edgeOf wCyc) "a" "a") ∧
      (∃ n, (resolveDependencies wCyc ["a"]).1 = Except.error (Err.cycle n)) ∧
        ∀ (st2 : DepState) (names2 : List String),
          CleanFlags (resolveDependencies st2 names2).2 ∧
            (resolveDependencies st2 names2).2.result = [] ∧
            (resolveDependencies st2 names2).2.queue = [] := by
  have hwf : WF wCyc := ⟨by decide, by decide, by decide, by decide⟩
  have hcf : ∀ p ∈ wCyc.modules,
      p.2.mark = false ∧ p.2.tmpMark = false ∧ p.2.conditionalMark = false := by
    decide
  have hclean : CleanState wCyc := ⟨hcf, rfl⟩
  have hab : edgeOf wCyc "a" "b" := by
    show "b" ∈ depsOf wCyc "a"
    decide
  have hba : edgeOf wCyc "b" "a" := by
    show "a" ∈ depsOf wCyc "b"
    decide
  have hcyc : Relation.TransGen (edgeOf wCyc) "a" "a" :=
    Relation.TransGen.tail (Relation.TransGen.single hab) hba
  have hreach : ReachableFrom wCyc ["a"] "a" :=
    ⟨"a", by decide, Relation.ReflTransGen.refl⟩
  exact ⟨⟨hwf, hclean, hreach, hcyc⟩,
    resolveDependencies_cycle_error wCyc ["a"] hwf hclean (by decide) "a" hreach
      hcyc⟩

/-- C3: for a well-formed, clean, acyclic configuration, a request of
registered names, and implementations present on every module of the
resolved ordered set, the success path of `Loader.require` hands the
callback the implementations of exactly the originally requested names in
the original request order. -/
theorem requireSuccess_original_order (st : DepState) (names : List String)
    (hwf : WF st) (hclean : CleanState st) (hacyc : Acyc st)
    (hreg : ∀ nm ∈ names, (lookupA st.modules nm).isSome = true)
    (himpl : ∀ nm ∈ ((loaderResolveDependencies st names).1.toOption.getD []),
        ∀ m, lookupA st.modules nm = some m → m.implementation.isSome = true) :
    requireSuccessArgs st names =
        some (names.map
          (fun nm => (lookupA st.modules nm).bind (fun r => r.implementation))) ∧
      ∀ nm ∈ names,
        ((lookupA st.modules nm).bind (fun r => r.implementation)).isSome =
          true := by
  have hfilt : names.filter (fun nm => (lookupA st.modules nm).isSome) = names :=
    List.filter_eq_self.mpr hreg
  obtain ⟨st1, heq, hnd, hdfr, hseed, hqres, hinv1, hpw, hcidx⟩ :=
    resolve_success_facts st names hwf hclean hacyc hreg
  have hlrd : loaderResolveDependencies st names = resolveDependencies st names := by
    unfold loaderResolveDependencies
    rw [hfilt]
  constructor
  · unfold requireSuccessArgs
    rw [hlrd, heq]
    show some (addModuleImplementations st names) = _
    refine congrArg some ?_
    refine map_ext_mem _ _ names ?_
    intro nm _
    cases lookupA st.modules nm with
    | none => rfl
    | some r => rfl
  · intro nm hnm
    have hm1 : nm ∈ (loaderResolveDependencies st names).1.toOption.getD [] := by
      rw [hlrd, heq]
      simpa [Except.toOption] using hseed nm hnm
    cases hlk : lookupA st.modules nm with
    | none =>
      have hr := hreg nm hnm
      rw [hlk] at hr
      cases hr
    | some m =>
      exact himpl nm hm1 m hlk

/-- Closed instance of the C3 statement on the implemented configuration
`alpha → beta`. -/
theorem requireSuccess_original_order_witness :
    (WF wImpl ∧ CleanState wImpl ∧ Acyc wImpl ∧
        (∀ nm ∈ ["alpha"], (lookupA wImpl.modules nm).isSome = true) ∧
        ∀ nm ∈ ((loaderResolveDependencies wImpl ["alpha"]).1.toOption.getD []),
          ∀ m, lookupA wImpl.modules nm = some m →
            m.implementation.isSome = true) ∧
      requireSuccessArgs wImpl ["alpha"] =
          some (["alpha"].map
            (fun nm => (lookupA wImpl.modules nm).bind (fun r => r.implementation))) ∧
        ∀ nm ∈ ["alpha"],
          ((lookupA wImpl.modules nm).bind (fun r => r.implementation)).isSome =
            true := by
  have hwf : WF wImpl := ⟨by decide, by decide, by decide, by decide⟩
  have hcf : ∀ p ∈ wImpl.modules,
      p.2.mark = false ∧ p.2.tmpMark = false ∧ p.2.conditionalMark = false := by
    decide
  have hclean : CleanState wImpl := ⟨hcf, rfl⟩
  have hacyc : Acyc wImpl :=
    rank_acyc wImpl (fun s => if s = "alpha" then 1 else 0) (by decide)
  have himpl : ∀ nm ∈ ((loaderResolveDependencies wImpl ["alpha"]).1.toOption.getD []),
      ∀ m, lookupA wImpl.modules nm = some m →
        m.implementation.isSome = true := by
    decide
  exact ⟨⟨hwf, hclean, hacyc, by decide, himpl⟩,
    requireSuccess_original_order wImpl ["alpha"] hwf hclean hacyc (by decide)
      himpl⟩

/-- C6: with a registered trigger `a` requested and a registered module whose
condition names trigger `a` and whose test is true, resolution succeeds with
an output containing both the trigger and the conditional module, the
conditional module occurs exactly once, and it precedes the trigger whenever
the trigger depends on it. -/
theorem conditional_activation (st : DepState) (names : List String)
    (a b : String) (hwf : WF st) (hclean : CleanState st) (hacyc : Acyc st)
    (hnames : ∀ x ∈ names, (lookupA st.modules x).isSome = true)
    (ha : a ∈ names) (lst : List String)
    (hidx : lookupA st.conditionalModules a = some lst) (hb : b ∈ lst)
    (mb : Mod) (hblk : lookupA st.modules b = some mb)
    (c : Cond) (hbc : mb.condition = some c) (htest : c.test = true) :
    ∃ out, (resolveDependencies st names).1 = Except.ok out ∧
      a ∈ out ∧ b ∈ out ∧ out.count b = 1 ∧
      (b ∈ depsOf st a → ∀ pre post, out = pre ++ a :: post → b ∈ pre) := by
  obtain ⟨st1, heq, hnd, hdfr, hseed, hqres, hinv1, hpw, hcidx⟩ :=
    resolve_success_facts st names hwf hclean hacyc hnames
  have hares : a ∈ st1.result := hseed a ha
  have hareg : (lookupA st.modules a).isSome = true := hnames a ha
  cases halk : lookupA st.modules a with
  | none =>
    rw [halk] at hareg
    cases hareg
  | some ma =>
    obtain ⟨ma1, halk1, hrel⟩ := PW_lookup coreRel_key _ _ hpw a ma halk
    have hmaname : ma.name = a := hwf.keys (a, ma) (lookupA_mem halk)
    have hma1name : ma1.name = a := by
      rw [hrel.2.1]
      exact hmaname
    have hma1mark : ma1.mark = true := (hinv1.mem_iff a ma1 halk1).mpr hares
    have hcm : ma1.conditionalMark = true := by
      rcases hinv1.mc a ma1 halk1 hma1mark with h | h
      · exact h
      · rw [hma1name, hcidx, hidx] at h
        cases h
    obtain ⟨mb1, hblk1, hrelb⟩ := PW_lookup coreRel_key _ _ hpw b mb hblk
    have hbname : mb.name = b := hwf.keys (b, mb) (lookupA_mem hblk)
    have hb1cond : mb1.condition = some c := by
      rw [hrelb.2.2.2.1]
      exact hbc
    have hbq : mb1.name ∈ st1.queue :=
      hinv1.condDone a ma1 halk1 hcm lst
        (by rw [hma1name, hcidx]; exact hidx) b hb mb1 hblk1 c hb1cond htest
    have hb1name : mb1.name = b := by
      rw [hrelb.2.1]
      exact hbname
    rw [hb1name] at hbq
    have hbres : b ∈ st1.result := hqres b hbq
    refine ⟨st1.result.reverse, by rw [heq], List.mem_reverse.mpr hares,
      List.mem_reverse.mpr hbres, ?_, ?_⟩
    · exact List.count_eq_one_of_mem (by simpa using hnd)
        (List.mem_reverse.mpr hbres)
    · intro hdep pre post hsplit
      exact DFR_reverse_split hdfr hsplit b hdep

/-- Closed instance of the C6 statement on the conditional configuration
where `beta` activates on trigger `alpha` and `alpha` depends on `beta`. -/
theorem conditional_activation_witness :
    (WF wCond ∧ CleanState wCond ∧ Acyc wCond ∧
        lookupA wCond.conditionalModules "alpha" = some ["beta"] ∧
        lookupA wCond.modules "beta" =
          some {name := "beta", condition := some ⟨"alpha", true⟩}) ∧
      ∃ out, (resolveDependencies wCond ["alpha"]).1 = Except.ok out ∧
        "alpha" ∈ out ∧ "beta" ∈ out ∧ out.count "beta" = 1 ∧
        ("beta" ∈ depsOf wCond "alpha" →
          ∀ pre post, out = pre ++ "alpha" :: post → "beta" ∈ pre) := by
  have hwf : WF wCond := ⟨by decide, by decide, by decide, by decide⟩
  have hcf : ∀ p ∈ wCond.modules,
      p.2.mark = false ∧ p.2.tmpMark = false ∧ p.2.conditionalMark = false := by
    decide
  have hclean : CleanState wCond := ⟨hcf, rfl⟩
  have hacyc : Acyc wCond :=
    rank_acyc wCond (fun s => if s = "alpha" then 1 else 0) (by decide)
  have hidx : lookupA wCond.conditionalModules "alpha" = some ["beta"] := by
    decide
  have hblk : lookupA wCond.modules "beta" =
      some {name := "beta", condition := some ⟨"alpha", true⟩} := by
    decide
  exact ⟨⟨hwf, hclean, hacyc, hidx, hblk⟩,
    conditional_activation wCond ["alpha"] "alpha" "beta" hwf hclean hacyc
      (by decide) (by decide) ["beta"] hidx (by decide)
      {name := "beta", condition := some ⟨"alpha", true⟩} hblk
      ⟨"alpha", true⟩ rfl rfl⟩

/-- Closed instance of the C5 statement, in combining mode. -/
theorem build_spec_witness :
    ((∀ nm ∈ ["mod1", "mod2"], ∃ m, lookupA wReg nm = some m ∧ m.fullPath = none) ∧
        (["mod1", "mod2"] : List String) ≠ []) ∧
      (build wConfC wReg ["mod1", "mod2"]).map Prod.fst =
        some
          (if wConfC.combine then
            [wConfC.url ++ "?" ++ normBase wConfC.basePath ++
              jsJoin ("&" ++ normBase wConfC.basePath)
                (["mod1", "mod2"].map (modulePathIn wReg))]
          else
            ["mod1", "mod2"].map
              (fun nm => wConfC.url ++ normBase wConfC.basePath ++ modulePathIn wReg nm)) :=
  ⟨⟨by
      intro nm hnm
      simp only [List.mem_cons, List.not_mem_nil, or_false] at hnm
      rcases hnm with rfl | rfl
      · exact ⟨_, rfl, rfl⟩
      · exact ⟨_, rfl, rfl⟩,
    by decide⟩,
    build_spec wConfC wReg ["mod1", "mod2"]
      (by
        intro nm hnm
        simp only [List.mem_cons, List.not_mem_nil, or_false] at hnm
        rcases hnm with rfl | rfl
        · exact ⟨_, rfl, rfl⟩
        · exact ⟨_, rfl, rfl⟩)
      (by decide)⟩

end AmdLoader
